import Mathlib

/-!
# lintchecker: fetch, verify, cache and run golangci-lint

A shallow embedding of `lintchecker.go` and `t.go`.

* Go strings and the bodies of HTTP responses are modelled by `String`
  (valid UTF-8 byte sequences); binary data (digests, archive entries,
  file contents) by lists of byte values.
* The operating system, the network and the libraries the code calls
  (`net/http`, `crypto/sha256`, `compress/gzip`, `archive/tar`,
  `path/filepath`, `os`, `os/exec`, `fslock`) are the fields of `Env`: what each
  call answers. The theorems hold for every `Env`.
* The state the code changes is `State`: the files on disk and the trace of
  the calls made so far.
* `t.Fatalf` ends the calling goroutine (`runtime.Goexit`): a fatal error is
  the `Except.error` result, and the state reached is kept next to it.
-/

namespace Lintchecker

/-- Binary data: a list of byte values. -/
abbrev Bytes := List Nat

/-! ## Reporting (`t.go`) -/

/-- The call sites of `t.Fatalf` in `lintchecker.go`, with the arguments
that are strings of the program (operating-system error values are left
out). -/
inductive Fatal where
  | userCacheDir
  | createCacheDir
  | stat (path : String)
  | fetch (url : String)
  | decodeSum (hashtext : String)
  | parseLine (line : String)
  | findSum (wantfile : String)
  | readBody (url : String)
  | gzipReader (url : String)
  | findBinary (url : String)
  | tarEntry
  | createDir (dir : String)
  | createFile (path : String)
  | writeFile (path : String)
  | checksumMismatch
  | run
  deriving DecidableEq, Repr

/-- The format string of each `t.Fatalf` call site. -/
def Fatal.format : Fatal → String
  | .userCacheDir => "failed to get user cache directory: %v"
  | .createCacheDir => "failed to create cache directory: %v"
  | .stat _ => "failed to stat %v: %v"
  | .fetch _ => "failed to fetch %v: %v"
  | .decodeSum _ => "failed to decode golangci-lint sum %v: %v"
  | .parseLine _ =>
    "failed to parse golangci-lint checksum file: " ++ "failed to parse line: %v"
  | .findSum _ => "failed to find %q in golangci-lint checksum file"
  | .readBody _ => "failed to read body from %v: %v"
  | .gzipReader _ => "failed to create gzip reader for %v: %v"
  | .findBinary _ => "failed to find 'golangci-lint' binary in %v"
  | .tarEntry => "failed to read tar entry: %v"
  | .createDir _ => "failed to create directory %v: %v"
  | .createFile _ => "failed to create file %v: %v"
  | .writeFile _ => "failed to write file %v: %v"
  | .checksumMismatch => "checksum mismatch for golangci-lint"
  | .run => "golangci-lint failed to run: %v"

/-- The text `testingT` puts in front of every format (`t.go`). -/
def testingTTag : String := "[lesiw.io/lintchecker] "

/-! ## Environment and state -/

/-- An HTTP response as `http.Get` returns it: the status code, the bytes
the body delivers, and whether reading the body ends in an error instead of
the end of the stream. -/
structure Response where
  status : Nat
  body : String
  bodyErr : Bool
  deriving DecidableEq, Repr

/-- One entry of a tar stream: the header name, the bytes reading the entry
delivers, and whether that reading ends in an error. -/
structure TarEntry where
  name : String
  data : Bytes
  readFails : Bool
  deriving DecidableEq, Repr

/-- What `tr.Next()` answers after the last entry: `io.EOF` or another
error. -/
inductive TarEnd where
  | eof
  | err
  deriving DecidableEq, Repr

/-- The tar stream read through the gzip reader: the entries `tr.Next()`
delivers in order, then how the stream ends. -/
structure Archive where
  entries : List TarEntry
  ending : TarEnd
  deriving DecidableEq, Repr

/-- The result of `exec.Command(...).CombinedOutput()`: no error, an error
that is an `*exec.ExitError`, or any other error; each with the captured
output. -/
inductive ExecResult where
  | success (out : String)
  | exitError (out : String)
  | otherError (out : String)
  deriving DecidableEq, Repr

/-- The result of `os.Stat`. -/
inductive StatResult where
  | found
  | notExist
  | otherError
  deriving DecidableEq, Repr

/-- The platform, the network, the libraries and the operating-system
failures, fixed during a run. -/
structure Env where
  /-- The value of `runtime.GOOS`. -/
  goos : String
  /-- The value of `runtime.GOARCH`. -/
  goarch : String
  /-- The result of `os.UserCacheDir()`; `none` is an error. -/
  userCacheDir : Option String
  /-- The function `filepath.Join` on two elements. -/
  join : String → String → String
  /-- The function `filepath.Dir`. -/
  dir : String → String
  /-- The result of `http.Get(url)`; `none` is a transport error. -/
  httpGet : String → Option Response
  /-- The SHA-256 digest of a byte sequence. -/
  sha256 : String → Bytes
  /-- The gzip reader and the tar reader over the buffered body; `none` when
  `gzip.NewReader` fails. -/
  openArchive : String → Option Archive
  /-- Whether `os.Stat` fails with an error other than "does not exist". -/
  statFails : String → Bool
  /-- Whether `os.MkdirAll` fails. -/
  mkdirAllFails : String → Bool
  /-- Whether `os.OpenFile` fails. -/
  openFileFails : String → Bool
  /-- How many bytes the file accepts before a write fails; `none` is no
  limit. -/
  writeCap : String → Option Nat
  /-- Whether `os.Remove` fails. -/
  removeFails : String → Bool
  /-- Whether acquiring the file lock fails. -/
  lockFails : String → Bool
  /-- The outcome of running a command. -/
  exec : String → List String → ExecResult

/-- The calls the program makes to the outside, in order. -/
inductive Event where
  | userCacheDir
  | mkdirAll (dir : String)
  | lock (path : String)
  | unlock (path : String)
  | stat (path : String)
  | httpGet (url : String)
  | openFile (path : String)
  | write (path : String) (data : Bytes)
  | remove (path : String)
  | exec (bin : String) (args : List String)
  | errorf (msg : String)
  deriving DecidableEq, Repr

/-- The files on disk (path to content) and the trace of calls so far. -/
structure State where
  files : String → Option Bytes
  trace : List Event

/-- A computation that may end in `t.Fatalf`: from a state to a result and
the state reached. -/
def M (α : Type) : Type := State → Except Fatal α × State

/-- Returning a value leaves the state as it is. -/
def M.pure {α : Type} (a : α) : M α := fun s => (.ok a, s)

/-- Sequencing: a fatal error ends the computation in the state reached. -/
def M.bind {α β : Type} (m : M α) (f : α → M β) : M β := fun s =>
  match m s with
  | (.ok a, s1) => f a s1
  | (.error x, s1) => (.error x, s1)

instance : Monad M where
  pure := M.pure
  bind := M.bind

deriving instance DecidableEq for Except

/-- The call `t.Fatalf`: the goroutine ends. -/
def fatalf {α : Type} (f : Fatal) : M α := fun s => (.error f, s)

/-- Appends an event to the trace. -/
def State.log (s : State) (ev : Event) : State :=
  { s with trace := s.trace ++ [ev] }

/-- Sets the content of one file (`none` removes it). -/
def State.setFile (s : State) (path : String) (c : Option Bytes) : State :=
  { s with files := fun p => if p = path then c else s.files p }

/-- The call `t.Errorf`: the failure is recorded and execution goes on. -/
def errorf (msg : String) : M Unit := fun s =>
  (.ok (), s.log (.errorf (testingTTag ++ msg)))

/-! ## Library calls -/

/-- The call `os.Stat(path)`. -/
def osStat (e : Env) (path : String) : M StatResult := fun s =>
  let s1 := s.log (.stat path)
  if e.statFails path then (.ok .otherError, s1)
  else match s.files path with
    | none => (.ok .notExist, s1)
    | some _ => (.ok .found, s1)

/-- The call `os.MkdirAll(dir, 0755)`; the answer is whether it succeeded. -/
def osMkdirAll (e : Env) (dir : String) : M Bool := fun s =>
  (.ok (!e.mkdirAllFails dir), s.log (.mkdirAll dir))

/-- The call `os.OpenFile(path, O_RDWR|O_CREATE|O_TRUNC, 0755)`: on success
the file exists and is empty; the answer is whether it succeeded. -/
def osOpenFile (e : Env) (path : String) : M Bool := fun s =>
  let s1 := s.log (.openFile path)
  if e.openFileFails path then (.ok false, s1)
  else (.ok true, s1.setFile path (some []))

/-- The bytes of an entry that reach the file at `path`: all of them, or
those before the write limit. -/
def ioCopyWritten (e : Env) (path : String) (ent : TarEntry) : Bytes :=
  match e.writeCap path with
  | some k => ent.data.take k
  | none => ent.data

/-- Whether `io.Copy(f, tr)` succeeds for an entry: reading the entry does
not fail and every byte is written. -/
def ioCopyOk (e : Env) (path : String) (ent : TarEntry) : Bool :=
  !ent.readFails && decide ((ioCopyWritten e path ent).length = ent.data.length)

/-- The call `io.Copy(f, tr)` for an entry; the answer is whether it
succeeded. -/
def ioCopy (e : Env) (path : String) (ent : TarEntry) : M Bool := fun s =>
  (.ok (ioCopyOk e path ent),
    (s.setFile path (some (ioCopyWritten e path ent))).log
      (.write path (ioCopyWritten e path ent)))

/-- The call `os.Remove(path)`, its error ignored. -/
def osRemove (e : Env) (path : String) : M Unit := fun s =>
  let s1 := s.log (.remove path)
  if e.removeFails path then (.ok (), s1)
  else (.ok (), s1.setFile path none)

/-- The call `http.Get(url)` followed by the code's check of its error. -/
def httpGet (e : Env) (url : String) : M Response := fun s =>
  let s1 := s.log (.httpGet url)
  match e.httpGet url with
  | none => (.error (.fetch url), s1)
  | some resp => (.ok resp, s1)

/-! ## Strings -/

/-- The function `strings.Cut` on character lists: the text before and
after the first occurrence of `sep`. -/
def cutChars (sep : List Char) : List Char → Option (List Char × List Char)
  | [] => if sep.isEmpty then some ([], []) else none
  | c :: cs =>
    if sep.isPrefixOf (c :: cs) then some ([], (c :: cs).drop sep.length)
    else (cutChars sep cs).map (fun p => (c :: p.1, p.2))

/-- The function `strings.Cut(s, sep)`; `none` is `ok == false`. -/
def stringsCut (s sep : String) : Option (String × String) :=
  (cutChars sep.data s.data).map (fun p => (String.mk p.1, String.mk p.2))

/-- The function `strings.HasSuffix`. -/
def stringsHasSuffix (s suffix : String) : Bool :=
  suffix.data.isSuffixOf s.data

/-- Splits at every newline; the text after the last newline is a line only
when it is not empty (`bufio.ScanLines`, before the carriage return is
dropped). -/
def rawLines : List Char → List Char → List (List Char)
  | [], acc => if acc.isEmpty then [] else [acc.reverse]
  | c :: cs, acc =>
    if c = Char.ofNat 10 then acc.reverse :: rawLines cs []
    else rawLines cs (c :: acc)

/-- Drops one trailing carriage return (`dropCR`). -/
def dropCR (l : List Char) : List Char :=
  if l.getLast? = some (Char.ofNat 13) then l.dropLast else l

/-- The constant `bufio.MaxScanTokenSize`. -/
def maxScanTokenSize : Nat := 64 * 1024

/-- The tokens `scanner.Text()` yields for `bufio.NewScanner(r)` until
`scanner.Scan()` answers false: the lines of the input, up to the first line
that does not fit the scanner's buffer. -/
def scanLines (r : String) : List String :=
  ((rawLines r.data []).takeWhile
    (fun l => decide ((String.mk l).utf8ByteSize < maxScanTokenSize))).map
    (fun l => String.mk (dropCR l))

/-- The value of one hexadecimal digit. -/
def fromHexChar (c : Char) : Option Nat :=
  let n := c.toNat
  if 48 ≤ n ∧ n ≤ 57 then some (n - 48)
  else if 97 ≤ n ∧ n ≤ 102 then some (n - 87)
  else if 65 ≤ n ∧ n ≤ 70 then some (n - 55)
  else none

/-- Decodes pairs of hexadecimal digits. -/
def hexDecodeChars : List Char → Option Bytes
  | [] => some []
  | [_] => none
  | p :: q :: rest =>
    match fromHexChar p, fromHexChar q with
    | some a, some b => (hexDecodeChars rest).map (fun t => (a * 16 + b) :: t)
    | _, _ => none

/-- The function `hex.DecodeString`; `none` is an error (a character that
is no hexadecimal digit, or an odd length). -/
def hexDecodeString (s : String) : Option Bytes := hexDecodeChars s.data

/-! ## The program (`lintchecker.go`) -/

/-- The format `lintReleaseURL` filled with the version. -/
def lintReleaseURL (version : String) : String :=
  "https://github.com/golangci/golangci-lint/releases" ++ "/download/v" ++ version

/-- The format `lintSumURL` filled with the version. -/
def lintSumURL (version : String) : String :=
  lintReleaseURL version ++ "/golangci-lint-" ++ version ++ "-checksums.txt"

/-- The format `lintTarFile` filled with version, OS and architecture. -/
def lintTarFile (version goos goarch : String) : String :=
  "golangci-lint-" ++ version ++ "-" ++ goos ++ "-" ++ goarch ++ ".tar.gz"

/-- The format `lintTarURL` filled with version, OS and architecture. -/
def lintTarURL (version goos goarch : String) : String :=
  lintReleaseURL version ++ "/" ++ lintTarFile version goos goarch

/-- The call `os.UserCacheDir()`. -/
def osUserCacheDir (e : Env) : M (Option String) := fun s =>
  (.ok e.userCacheDir, s.log .userCacheDir)

/-- The function `cacheDir`. -/
def cacheDir (e : Env) : M String := do
  match ← osUserCacheDir e with
  | none => fatalf .userCacheDir
  | some cache =>
    let dir := e.join cache "lintchecker"
    if !(← osMkdirAll e dir) then
      fatalf .createCacheDir
    return dir

/-- The loop of `lintHash` over the scanned lines. -/
def lintHashLoop (wantfile : String) : List String → Except Fatal String
  | [] => .error (.findSum wantfile)
  | line :: rest =>
    match stringsCut line "  " with
    | none => .error (.parseLine line)
    | some (hash, file) =>
      if file = wantfile then .ok hash else lintHashLoop wantfile rest

/-- The lookup key `wantfile` that `lintHash` formats. -/
def lintHashWantfile (e : Env) (version : String) : String :=
  "golangci-lint-" ++ version ++ "-" ++ e.goos ++ "-" ++ e.goarch ++ ".tar.gz"

/-- The function `lintHash` on the bytes the reader `r` delivers. A read
error ends the scan like the end of the input: `scanner.Err()` is not
consulted. -/
def lintHash (e : Env) (r : String) (version : String) : Except Fatal String :=
  lintHashLoop (lintHashWantfile e version) (scanLines r)

/-- Runs a computation that only returns or ends in `t.Fatalf`. -/
def liftExcept {α : Type} (x : Except Fatal α) : M α := fun s => (x, s)

/-- The function `lintSum`. -/
def lintSum (e : Env) (version : String) : M Bytes := do
  let url := lintSumURL version
  let resp ← httpGet e url
  let hashtext ← liftExcept (lintHash e resp.body version)
  match hexDecodeString hashtext with
  | none => fatalf (.decodeSum hashtext)
  | some hash => return hash

/-- The body of the loop of `lintFetch` for an entry whose name matches:
directory, file, copy. -/
def lintFetchInstall (e : Env) (path : String) (hdr : TarEntry) : M Unit := do
  let dir := e.dir path
  if !(← osMkdirAll e dir) then
    fatalf (.createDir dir)
  if !(← osOpenFile e path) then
    osRemove e path
    fatalf (.createFile path)
  if !(← ioCopy e path hdr) then
    osRemove e path
    fatalf (.writeFile path)

/-- The loop of `lintFetch` over the tar entries. -/
def lintFetchLoop (e : Env) (path url : String) (ending : TarEnd) :
    List TarEntry → M Unit
  | [] =>
    match ending with
    | .eof => fatalf (.findBinary url)
    | .err => fatalf .tarEntry
  | hdr :: rest =>
    if stringsHasSuffix hdr.name "golangci-lint" then
      lintFetchInstall e path hdr
    else lintFetchLoop e path url ending rest

/-- The function `lintFetch`. -/
def lintFetch (e : Env) (path version : String) : M Unit := do
  let url := lintTarURL version e.goos e.goarch
  let resp ← httpGet e url
  if resp.bodyErr then
    fatalf (.readBody url)
  match e.openArchive resp.body with
  | none => fatalf (.gzipReader url)
  | some ar =>
    lintFetchLoop e path url ar.ending ar.entries
    let sum ← lintSum e version
    if e.sha256 resp.body ≠ sum then
      osRemove e path
      fatalf .checksumMismatch

/-- The file name that `lintBin` formats. -/
def lintBinName (e : Env) (version : String) : String :=
  "golangci-lint-" ++ version ++ "-" ++ e.goos ++ "-" ++ e.goarch

/-- The function `lintBin`. -/
def lintBin (e : Env) (version : String) : M String := do
  let path := e.join (← cacheDir e) (lintBinName e version)
  match ← osStat e path with
  | .notExist => lintFetch e path version
  | .otherError => fatalf (.stat path)
  | .found => pure ()
  return path

/-- The call `fslock.With(path, fn)`: when the lock cannot be acquired `fn`
does not run; otherwise `fn` runs and the lock is released, also when `fn`
ends the goroutine. -/
def fslockWith {α : Type} (e : Env) (path : String) (fn : M α) : M (Option α) :=
  fun s =>
    let s1 := s.log (.lock path)
    if e.lockFails path then (.ok none, s1)
    else match fn s1 with
      | (.ok a, s2) => (.ok (some a), s2.log (.unlock path))
      | (.error f, s2) => (.error f, s2.log (.unlock path))

/-- The call `exec.Command(bin, args...).CombinedOutput()`. -/
def execCombinedOutput (e : Env) (bin : String) (args : List String) :
    M ExecResult := fun s =>
  (.ok (e.exec bin args), s.log (.exec bin args))

/-- The arguments `lint` passes to the binary. -/
def lintArgs : List String := ["run", "--allow-parallel-runners"]

/-- The first statements of `lint`: the variable `bin` after the locked call
of `lintBin` (empty when the lock was not acquired). -/
def lintProvision (e : Env) (version : String) : M String := do
  let lockPath := e.join (← cacheDir e) "lint.lock"
  let bin ← fslockWith e lockPath (lintBin e version)
  return bin.getD ""

/-- The last statements of `lint`: run the binary and classify the error. -/
def lintRun (e : Env) (bin : String) : M Unit := do
  match ← execCombinedOutput e bin lintArgs with
  | .exitError out => errorf ("golangci-lint failed\n" ++ out)
  | .otherError _ => fatalf .run
  | .success _ => pure ()

/-- The function `lint`. -/
def lint (e : Env) (version : String) : M Unit := do
  let bin ← lintProvision e version
  lintRun e bin

/-- The function `Lint`: `lint` on the wrapped `*testing.T`. -/
def Lint (e : Env) (version : String) : M Unit := lint e version

/-! ## Definitions used in the statements -/

/-- The result of `lintSum`, which depends on the environment only. -/
def lintSumResult (e : Env) (version : String) : Except Fatal Bytes :=
  match e.httpGet (lintSumURL version) with
  | none => .error (.fetch (lintSumURL version))
  | some resp =>
    match lintHash e resp.body version with
    | .error f => .error f
    | .ok hashtext =>
      match hexDecodeString hashtext with
      | none => .error (.decodeSum hashtext)
      | some hash => .ok hash

/-- Whether an archive entry is the one `lintFetch` installs. -/
def isLintEntry (hdr : TarEntry) : Bool := stringsHasSuffix hdr.name "golangci-lint"

/-- The messages of the `t.Errorf` calls made so far. -/
def errorfCalls (s : State) : List String :=
  s.trace.filterMap (fun ev => match ev with
    | .errorf msg => some msg
    | _ => none)

/-- The environment with every response status replaced through `f`. -/
def Env.mapStatus (e : Env) (f : Nat → Nat) : Env :=
  { e with httpGet := fun url =>
      (e.httpGet url).map (fun resp => { resp with status := f resp.status }) }

/-- The lines of a body: the texts between newlines, the last one when it is
not empty (`bufio.ScanLines` on the whole input). -/
def bodyLines (r : String) : List (List Char) := rawLines r.data []

/-- The text of a line: the line without one trailing carriage return. -/
def lineText (l : List Char) : String := String.mk (dropCR l)

/-- Whether a line fits the buffer of the scanner: it is shorter than
`bufio.MaxScanTokenSize` bytes. -/
def fitsScanner (l : List Char) : Bool :=
  decide ((String.mk l).utf8ByteSize < maxScanTokenSize)

/-- A line of 65536 bytes with the separator: "00", two spaces, and 65532
times the letter a. -/
def longManifestLine : List Char := "00  ".data ++ List.replicate 65532 (Char.ofNat 97)

/-- A line of 65536 bytes without the separator: 65536 times the letter a. -/
def longBadLine : List Char := List.replicate 65536 (Char.ofNat 97)

/-! ## Sample environments -/

/-- A state with no file and no call made. -/
def emptyState : State := ⟨fun _ => none, []⟩

/-- A sample environment: linux/amd64, a network that answers nothing, an
operating system on which nothing fails. -/
def sampleEnv : Env where
  goos := "linux"
  goarch := "amd64"
  userCacheDir := some "/home/u/.cache"
  join := fun a b => a ++ "/" ++ b
  dir := fun _ => "/home/u/.cache/lintchecker"
  httpGet := fun _ => none
  sha256 := fun _ => [1, 2]
  openArchive := fun _ => none
  statFails := fun _ => false
  mkdirAllFails := fun _ => false
  openFileFails := fun _ => false
  writeCap := fun _ => none
  removeFails := fun _ => false
  lockFails := fun _ => false
  exec := fun _ _ => .success ""

/-- The path of the cached binary in the sample environment. -/
def samplePath : String := "/home/u/.cache/lintchecker/golangci-lint-1.0.0-linux-amd64"

/-- A sample archive: a text file, then the binary. -/
def sampleArchive : Archive :=
  ⟨[⟨"golangci-lint-1.0.0-linux-amd64/README.md", [9], false⟩,
    ⟨"golangci-lint-1.0.0-linux-amd64/golangci-lint", [1, 2, 3], false⟩], .eof⟩

/-- A network that serves the sample archive and, for the manifest, the given
answer. -/
def sampleNet (manifest : Option Response) (url : String) : Option Response :=
  if url = lintTarURL "1.0.0" "linux" "amd64" then some ⟨200, "ARCHIVE", false⟩
  else if url = lintSumURL "1.0.0" then manifest
  else none

/-- The sample environment serving the sample archive and a manifest with
the archive's digest. -/
def goodEnv : Env :=
  { sampleEnv with
    httpGet := sampleNet
      (some ⟨200, "0102  golangci-lint-1.0.0-linux-amd64.tar.gz\n", false⟩)
    openArchive := fun _ => some sampleArchive }

/-- The sample environment serving the sample archive and a manifest whose
digest for the archive is not the archive's digest. -/
def mismatchEnv : Env :=
  { sampleEnv with
    httpGet := sampleNet
      (some ⟨200, "00ff  golangci-lint-1.0.0-linux-amd64.tar.gz\n", false⟩)
    openArchive := fun _ => some sampleArchive }

/-- The sample environment serving the sample archive while the manifest
cannot be fetched. -/
def noManifestEnv : Env :=
  { sampleEnv with
    httpGet := sampleNet none
    openArchive := fun _ => some sampleArchive }

/-- The sample environment whose manifest request is answered with status
404 and a body that is a manifest line for the archive. -/
def notFoundEnv : Env :=
  { sampleEnv with
    httpGet := sampleNet
      (some ⟨404, "00ff  golangci-lint-1.0.0-linux-amd64.tar.gz\n", false⟩) }

/-- The sample environment in which the lock cannot be acquired. -/
def lockedEnv : Env :=
  { sampleEnv with
    lockFails := fun _ => true
    exec := fun bin _ => if bin = "" then .otherError "" else .success "" }

/-- The sample environment with the binary cached and exiting non-zero. -/
def findingsEnv : Env :=
  { sampleEnv with exec := fun _ _ => .exitError "main.go:1: unused" }

/-- A state in which the sample binary is cached. -/
def cachedState : State :=
  ⟨fun p => if p = samplePath then some [1, 2, 3] else none, []⟩

/-! ## How each function runs -/

/-- Running a sequence: the second computation runs in the state the first one
reached, unless the first ended fatally. -/
theorem bind_run {α β : Type} (m : M α) (f : α → M β) (s : State) :
    (m >>= f) s = match m s with
      | (.ok a, s1) => f a s1
      | (.error x, s1) => (.error x, s1) := rfl

/-- Running a return. -/
theorem pure_run {α : Type} (a : α) (s : State) : (pure a : M α) s = (.ok a, s) := rfl

/-- The three outcomes of `cacheDir`. -/
theorem cacheDir_run (e : Env) (s : State) :
    cacheDir e s = match e.userCacheDir with
      | none => (.error .userCacheDir, s.log .userCacheDir)
      | some cache =>
        if e.mkdirAllFails (e.join cache "lintchecker") then
          (.error .createCacheDir,
            (s.log .userCacheDir).log (.mkdirAll (e.join cache "lintchecker")))
        else
          (.ok (e.join cache "lintchecker"),
            (s.log .userCacheDir).log (.mkdirAll (e.join cache "lintchecker"))) := by
  simp only [cacheDir, bind_run, osUserCacheDir]
  cases e.userCacheDir with
  | none => rfl
  | some cache =>
    simp only [bind_run, osMkdirAll, pure_run]
    cases e.mkdirAllFails (e.join cache "lintchecker") <;> rfl

/-- The loop of `lintFetch` installs the first entry whose name ends with
`golangci-lint`; without such an entry it ends fatally. -/
theorem lintFetchLoop_find (e : Env) (path url : String) (ending : TarEnd)
    (entries : List TarEntry) :
    lintFetchLoop e path url ending entries =
      match entries.find? isLintEntry with
      | some hdr => lintFetchInstall e path hdr
      | none =>
        match ending with
        | .eof => fatalf (.findBinary url)
        | .err => fatalf .tarEntry := by
  induction entries with
  | nil => rfl
  | cons hdr rest ih =>
    simp only [lintFetchLoop, List.find?, isLintEntry]
    cases h : stringsHasSuffix hdr.name "golangci-lint"
    · simpa [isLintEntry] using ih
    · simp

/-- The four outcomes of installing an entry. -/
theorem lintFetchInstall_run (e : Env) (path : String) (hdr : TarEntry) (s : State) :
    lintFetchInstall e path hdr s =
      if e.mkdirAllFails (e.dir path) then
        (.error (.createDir (e.dir path)), s.log (.mkdirAll (e.dir path)))
      else if e.openFileFails path then
        (.error (.createFile path),
          (osRemove e path ((s.log (.mkdirAll (e.dir path))).log (.openFile path))).2)
      else if ioCopyOk e path hdr then
        (.ok (), (ioCopy e path hdr
          (((s.log (.mkdirAll (e.dir path))).log (.openFile path)).setFile path (some []))).2)
      else
        (.error (.writeFile path), (osRemove e path (ioCopy e path hdr
          (((s.log (.mkdirAll (e.dir path))).log (.openFile path)).setFile path
            (some []))).2).2) := by
  simp only [lintFetchInstall, bind_run, osMkdirAll, pure_run]
  cases e.mkdirAllFails (e.dir path)
  · simp only [Bool.not_false, Bool.not_true, Bool.false_eq_true, if_false, if_true, bind_run,
      pure_run, osOpenFile]
    cases e.openFileFails path
    · simp only [Bool.not_false, Bool.not_true, Bool.false_eq_true, if_false, if_true, bind_run,
        pure_run, ioCopy]
      cases ioCopyOk e path hdr
      · simp only [Bool.not_false, Bool.not_true, Bool.false_eq_true, if_false, if_true,
          bind_run, pure_run, osRemove]
        cases e.removeFails path <;> rfl
      · rfl
    · simp only [Bool.not_false, Bool.not_true, Bool.false_eq_true, if_false, if_true, bind_run,
        pure_run, osRemove]
      cases e.removeFails path <;> rfl
  · rfl

/-- The call `lintSum` makes one request and leaves the files as they are. -/
theorem lintSum_run (e : Env) (version : String) (s : State) :
    lintSum e version s =
      (lintSumResult e version, s.log (.httpGet (lintSumURL version))) := by
  simp only [lintSum, lintSumResult, bind_run, httpGet]
  cases e.httpGet (lintSumURL version) with
  | none => rfl
  | some resp =>
    simp only [liftExcept]
    cases lintHash e resp.body version with
    | error f => rfl
    | ok hashtext =>
      simp only []
      cases hexDecodeString hashtext <;> rfl

/-- Every outcome of `lintFetch`. -/
theorem lintFetch_run (e : Env) (path version : String) (s : State) :
    lintFetch e path version s =
      match e.httpGet (lintTarURL version e.goos e.goarch) with
      | none => (.error (.fetch (lintTarURL version e.goos e.goarch)),
          s.log (.httpGet (lintTarURL version e.goos e.goarch)))
      | some resp =>
        if resp.bodyErr then
          (.error (.readBody (lintTarURL version e.goos e.goarch)),
            s.log (.httpGet (lintTarURL version e.goos e.goarch)))
        else
          match e.openArchive resp.body with
          | none => (.error (.gzipReader (lintTarURL version e.goos e.goarch)),
              s.log (.httpGet (lintTarURL version e.goos e.goarch)))
          | some ar =>
            match lintFetchLoop e path (lintTarURL version e.goos e.goarch) ar.ending
                ar.entries (s.log (.httpGet (lintTarURL version e.goos e.goarch))) with
            | (.error f, s2) => (.error f, s2)
            | (.ok _, s2) =>
              match lintSumResult e version with
              | .error f => (.error f, s2.log (.httpGet (lintSumURL version)))
              | .ok sum =>
                if e.sha256 resp.body = sum then
                  (.ok (), s2.log (.httpGet (lintSumURL version)))
                else
                  (.error .checksumMismatch,
                    (osRemove e path (s2.log (.httpGet (lintSumURL version)))).2) := by
  simp only [lintFetch, bind_run, httpGet]
  cases e.httpGet (lintTarURL version e.goos e.goarch) with
  | none => rfl
  | some resp =>
    simp only []
    cases resp.bodyErr
    · simp only [Bool.false_eq_true, if_false, bind_run, pure_run]
      cases e.openArchive resp.body with
      | none => rfl
      | some ar =>
        simp only [bind_run, lintSum_run]
        rcases lintFetchLoop e path (lintTarURL version e.goos e.goarch) ar.ending
            ar.entries (s.log (.httpGet (lintTarURL version e.goos e.goarch))) with ⟨r, s2⟩
        cases r with
        | error f => rfl
        | ok u =>
          simp only []
          cases lintSumResult e version with
          | error f => rfl
          | ok sum =>
            simp only []
            by_cases h : e.sha256 resp.body = sum
            · simp [h, pure_run]
            · simp only [ne_eq, h, not_false_eq_true, if_true, if_false, bind_run, osRemove]
              cases e.removeFails path <;> rfl
    · rfl

/-- Every outcome of `lintBin`. -/
theorem lintBin_run (e : Env) (version : String) (s : State) :
    lintBin e version s =
      match cacheDir e s with
      | (.error f, s1) => (.error f, s1)
      | (.ok dir, s1) =>
        if e.statFails (e.join dir (lintBinName e version)) then
          (.error (.stat (e.join dir (lintBinName e version))),
            s1.log (.stat (e.join dir (lintBinName e version))))
        else
          match s1.files (e.join dir (lintBinName e version)) with
          | some _ => (.ok (e.join dir (lintBinName e version)),
              s1.log (.stat (e.join dir (lintBinName e version))))
          | none =>
            match lintFetch e (e.join dir (lintBinName e version)) version
                (s1.log (.stat (e.join dir (lintBinName e version)))) with
            | (.ok _, s2) => (.ok (e.join dir (lintBinName e version)), s2)
            | (.error f, s2) => (.error f, s2) := by
  simp only [lintBin, bind_run]
  rcases cacheDir e s with ⟨r, s1⟩
  cases r with
  | error f => rfl
  | ok dir =>
    simp only [osStat]
    cases e.statFails (e.join dir (lintBinName e version))
    · simp only [Bool.false_eq_true, if_false]
      cases s1.files (e.join dir (lintBinName e version)) with
      | none =>
        simp only [bind_run]
        rcases lintFetch e (e.join dir (lintBinName e version)) version
          (s1.log (.stat (e.join dir (lintBinName e version)))) with ⟨r2, s2⟩
        cases r2 <;> rfl
      | some c => rfl
    · rfl

/-- Every outcome of the locked provisioning step. -/
theorem lintProvision_run (e : Env) (version : String) (s : State) :
    lintProvision e version s =
      match cacheDir e s with
      | (.error f, s1) => (.error f, s1)
      | (.ok dir, s1) =>
        if e.lockFails (e.join dir "lint.lock") then
          (.ok "", s1.log (.lock (e.join dir "lint.lock")))
        else
          match lintBin e version (s1.log (.lock (e.join dir "lint.lock"))) with
          | (.ok bin, s2) => (.ok bin, s2.log (.unlock (e.join dir "lint.lock")))
          | (.error f, s2) => (.error f, s2.log (.unlock (e.join dir "lint.lock"))) := by
  simp only [lintProvision, bind_run]
  rcases cacheDir e s with ⟨r, s1⟩
  cases r with
  | error f => rfl
  | ok dir =>
    simp only [fslockWith]
    cases e.lockFails (e.join dir "lint.lock")
    · simp only [Bool.false_eq_true, if_false]
      rcases lintBin e version (s1.log (.lock (e.join dir "lint.lock"))) with ⟨r2, s2⟩
      cases r2 <;> rfl
    · rfl

/-- The three outcomes of the run step. -/
theorem lintRun_run (e : Env) (bin : String) (s : State) :
    lintRun e bin s =
      match e.exec bin lintArgs with
      | .success _ => (.ok (), s.log (.exec bin lintArgs))
      | .exitError out => (.ok (), (s.log (.exec bin lintArgs)).log
          (.errorf (testingTTag ++ ("golangci-lint failed\n" ++ out))))
      | .otherError _ => (.error .run, s.log (.exec bin lintArgs)) := by
  simp only [lintRun, bind_run, execCombinedOutput]
  cases e.exec bin lintArgs <;> rfl

/-- The function `lint` is the provisioning step followed by the run step. -/
theorem lint_run (e : Env) (version : String) (s : State) :
    lint e version s =
      match lintProvision e version s with
      | (.ok bin, s1) => lintRun e bin s1
      | (.error f, s1) => (.error f, s1) := by
  simp only [lint, bind_run]
  rcases lintProvision e version s with ⟨r, s1⟩
  cases r <;> rfl

/-- A copy that succeeds writes all the bytes of the entry. -/
theorem ioCopyWritten_of_ok (e : Env) (path : String) (hdr : TarEntry)
    (h : ioCopyOk e path hdr = true) : ioCopyWritten e path hdr = hdr.data := by
  simp only [ioCopyOk, Bool.and_eq_true, decide_eq_true_eq] at h
  have hl := h.2
  unfold ioCopyWritten at hl ⊢
  cases hc : e.writeCap path with
  | none => rfl
  | some k =>
    rw [hc] at hl
    simp only [List.length_take] at hl
    simp only []
    exact List.take_of_length_le (by omega)

/-- The bytes written are the first bytes of the entry. -/
theorem ioCopyWritten_take (e : Env) (path : String) (hdr : TarEntry) :
    ∃ k, ioCopyWritten e path hdr = hdr.data.take k := by
  unfold ioCopyWritten
  cases e.writeCap path with
  | none => exact ⟨hdr.data.length, by simp⟩
  | some k => exact ⟨k, rfl⟩

/-- When the loop of `lintFetch` completes, the first matching entry is the file
at the target path. -/
theorem lintFetchLoop_ok (e : Env) (path url : String) (ending : TarEnd)
    (entries : List TarEntry) (s s2 : State)
    (u : Unit) (h : lintFetchLoop e path url ending entries s = (.ok u, s2)) :
    ∃ hdr, entries.find? isLintEntry = some hdr ∧
      e.mkdirAllFails (e.dir path) = false ∧ e.openFileFails path = false ∧
      ioCopyOk e path hdr = true ∧
      s2 = ((((s.log (.mkdirAll (e.dir path))).log (.openFile path)).setFile path
        (some [])).setFile path (some hdr.data)).log (.write path hdr.data) := by
  rw [lintFetchLoop_find] at h
  cases hf : entries.find? isLintEntry with
  | none =>
    rw [hf] at h
    cases ending <;> simp [fatalf] at h
  | some hdr =>
    rw [hf] at h
    simp only [lintFetchInstall_run] at h
    refine ⟨hdr, rfl, ?_⟩
    cases hm : e.mkdirAllFails (e.dir path)
    · cases ho : e.openFileFails path
      · cases hc : ioCopyOk e path hdr
        · simp [hm, ho, hc] at h
        · simp only [hm, ho, hc, Bool.false_eq_true, if_false, if_true, ioCopy,
            Prod.mk.injEq, true_and] at h
          rw [ioCopyWritten_of_ok e path hdr hc] at h
          exact ⟨rfl, rfl, rfl, h.symm⟩
      · simp [hm, ho] at h
    · simp [hm] at h

/-- When `lintFetch` returns, the digests are equal and the first matching entry
is the file at the target path. -/
theorem lintFetch_ok (e : Env) (path version : String) (s s1 : State) (u : Unit)
    (h : lintFetch e path version s = (.ok u, s1)) :
    ∃ resp ar hdr sum,
      e.httpGet (lintTarURL version e.goos e.goarch) = some resp ∧
      resp.bodyErr = false ∧
      e.openArchive resp.body = some ar ∧
      ar.entries.find? isLintEntry = some hdr ∧
      lintSumResult e version = .ok sum ∧
      e.sha256 resp.body = sum ∧
      s1.files path = some hdr.data := by
  rw [lintFetch_run] at h
  cases hg : e.httpGet (lintTarURL version e.goos e.goarch) with
  | none => simp [hg] at h
  | some resp =>
    cases hb : resp.bodyErr
    · cases ha : e.openArchive resp.body with
      | none => simp [hg, hb, ha] at h
      | some ar =>
        simp only [hg, hb, ha, Bool.false_eq_true, if_false] at h
        rcases hl : lintFetchLoop e path (lintTarURL version e.goos e.goarch) ar.ending
            ar.entries (s.log (.httpGet (lintTarURL version e.goos e.goarch))) with ⟨r, s2⟩
        rw [hl] at h
        cases r with
        | error f => simp at h
        | ok u2 =>
          obtain ⟨hdr, hfind, -, -, -, hs2⟩ := lintFetchLoop_ok e path _ _ _ _ s2 u2 hl
          simp only [] at h
          cases hsum : lintSumResult e version with
          | error f => simp [hsum] at h
          | ok sum =>
            simp only [hsum] at h
            by_cases hd : e.sha256 resp.body = sum
            · simp only [hd, if_true, Prod.mk.injEq, true_and] at h
              refine ⟨resp, ar, hdr, sum, rfl, hb, ha, hfind, rfl, hd, ?_⟩
              rw [← h, hs2]
              simp [State.log, State.setFile]
            · simp [hd] at h
    · simp [hg, hb] at h

/-- When the loop of `lintFetch` has installed the entry and `lintSum` ends
fatally, `lintFetch` ends with that error and the entry stays at the target
path. -/
theorem lintFetch_lintSum_fatal (e : Env) (path version : String) (s s1 : State)
    (resp : Response) (ar : Archive) (u : Unit) (f : Fatal)
    (hg : e.httpGet (lintTarURL version e.goos e.goarch) = some resp)
    (hb : resp.bodyErr = false)
    (ha : e.openArchive resp.body = some ar)
    (hl : lintFetchLoop e path (lintTarURL version e.goos e.goarch) ar.ending ar.entries
      (s.log (.httpGet (lintTarURL version e.goos e.goarch))) = (.ok u, s1))
    (hs : lintSumResult e version = .error f) :
    lintFetch e path version s = (.error f, s1.log (.httpGet (lintSumURL version))) ∧
    ∃ hdr, ar.entries.find? isLintEntry = some hdr ∧
      (lintFetch e path version s).2.files path = some hdr.data := by
  have hrun : lintFetch e path version s
      = (.error f, s1.log (.httpGet (lintSumURL version))) := by
    rw [lintFetch_run]
    simp only [hg, hb, ha, hl, hs, Bool.false_eq_true, if_false]
  obtain ⟨hdr, hfind, -, -, -, hs1⟩ := lintFetchLoop_ok e path _ _ _ _ s1 u hl
  refine ⟨hrun, hdr, hfind, ?_⟩
  rw [hrun, hs1]
  simp [State.log, State.setFile]

/-- The path `lintBin` returns. -/
theorem lintBin_path (e : Env) (version : String) (s s1 : State) (path : String)
    (h : lintBin e version s = (.ok path, s1)) :
    ∃ cache, e.userCacheDir = some cache ∧
      path = e.join (e.join cache "lintchecker") (lintBinName e version) := by
  rw [lintBin_run, cacheDir_run] at h
  cases hc : e.userCacheDir with
  | none => simp [hc] at h
  | some cache =>
    refine ⟨cache, rfl, ?_⟩
    cases hm : e.mkdirAllFails (e.join cache "lintchecker")
    · simp only [hc, hm, Bool.false_eq_true, if_false] at h
      split at h
      · simp at h
      · split at h
        · exact ((Except.ok.inj (Prod.mk.inj h).1)).symm
        · split at h
          · exact ((Except.ok.inj (Prod.mk.inj h).1)).symm
          · simp at h
    · simp [hc, hm] at h

/-- The call `os.Remove` adds one event. -/
theorem osRemove_trace (e : Env) (path : String) (t : State) :
    (osRemove e path t).2.trace = t.trace ++ [.remove path] := by
  unfold osRemove
  cases e.removeFails path <;> rfl

/-- The call `os.Remove` leaves every other path as it is. -/
theorem osRemove_files_ne (e : Env) (path q : String) (t : State) (hq : q ≠ path) :
    (osRemove e path t).2.files q = t.files q := by
  unfold osRemove
  cases e.removeFails path <;> simp [State.log, State.setFile, hq]

/-- The first element that satisfies a test, from a split of the list. -/
theorem find?_of_split {α : Type} (p : α → Bool) (pre : List α) (x : α) (post : List α)
    (hpre : ∀ a ∈ pre, p a = false) (hx : p x = true) :
    (pre ++ x :: post).find? p = some x := by
  induction pre with
  | nil => simp [List.find?, hx]
  | cons a pre ih =>
    have ha := hpre a (by simp)
    simp only [List.cons_append, List.find?, ha]
    exact ih (fun b hb => hpre b (by simp [hb]))

/-- No element satisfies the test. -/
theorem find?_none_of_all {α : Type} (p : α → Bool) (l : List α)
    (h : ∀ a ∈ l, p a = false) : l.find? p = none := by
  induction l with
  | nil => rfl
  | cons a l ih =>
    simp only [List.find?, h a (by simp)]
    exact ih (fun b hb => h b (by simp [hb]))

/-- Installing an entry writes only to the target path, and only bytes of that
entry. -/
theorem lintFetchInstall_effects (e : Env) (path : String) (hdr : TarEntry) (t : State) :
    (∃ evs, (lintFetchInstall e path hdr t).2.trace = t.trace ++ evs ∧
      ∀ p d, Event.write p d ∈ evs → p = path ∧ ∃ k, d = hdr.data.take k) ∧
    (∀ q, q ≠ path → (lintFetchInstall e path hdr t).2.files q = t.files q) := by
  obtain ⟨k, hk⟩ := ioCopyWritten_take e path hdr
  rw [lintFetchInstall_run]
  split
  · exact ⟨⟨[.mkdirAll (e.dir path)], rfl, by simp⟩, fun q _ => rfl⟩
  · split
    · refine ⟨⟨[.mkdirAll (e.dir path), .openFile path, .remove path], ?_, by simp⟩, ?_⟩
      · simp [osRemove_trace, State.log]
      · intro q hq
        simp [osRemove_files_ne _ _ _ _ hq, State.log]
    · split
      · refine ⟨⟨[.mkdirAll (e.dir path), .openFile path,
          .write path (ioCopyWritten e path hdr)], ?_, ?_⟩, ?_⟩
        · simp [ioCopy, State.log, State.setFile]
        · intro p d hmem
          simp at hmem
          exact ⟨hmem.1, k, by rw [hmem.2, hk]⟩
        · intro q hq
          simp [ioCopy, State.log, State.setFile, hq]
      · refine ⟨⟨[.mkdirAll (e.dir path), .openFile path,
          .write path (ioCopyWritten e path hdr), .remove path], ?_, ?_⟩, ?_⟩
        · simp [osRemove_trace, ioCopy, State.log, State.setFile]
        · intro p d hmem
          simp at hmem
          exact ⟨hmem.1, k, by rw [hmem.2, hk]⟩
        · intro q hq
          simp [osRemove_files_ne _ _ _ _ hq, ioCopy, State.log, State.setFile, hq]

/-- The loop of `lintFetch` only adds events. -/
theorem lintFetchLoop_trace (e : Env) (path url : String) (ending : TarEnd)
    (entries : List TarEntry) (t : State) :
    ∃ evs, (lintFetchLoop e path url ending entries t).2.trace = t.trace ++ evs := by
  rw [lintFetchLoop_find]
  split
  · rename_i hdr _
    obtain ⟨⟨evs, htr, -⟩, -⟩ := lintFetchInstall_effects e path hdr t
    exact ⟨evs, htr⟩
  · cases ending <;> exact ⟨[], by simp [fatalf]⟩

/-- The first call `lintFetch` makes is the request of the archive URL. -/
theorem lintFetch_trace (e : Env) (path version : String) (s : State) :
    ∃ evs, (lintFetch e path version s).2.trace
      = s.trace ++ .httpGet (lintTarURL version e.goos e.goarch) :: evs := by
  rw [lintFetch_run]
  split
  · exact ⟨[], rfl⟩
  · split
    · exact ⟨[], rfl⟩
    · split
      · exact ⟨[], rfl⟩
      · rename_i ar _
        obtain ⟨evs, htr⟩ := lintFetchLoop_trace e path (lintTarURL version e.goos e.goarch)
          ar.ending ar.entries (s.log (.httpGet (lintTarURL version e.goos e.goarch)))
        split
        · rename_i heq
          rw [heq] at htr
          exact ⟨evs, by simpa [State.log] using htr⟩
        · rename_i heq
          rw [heq] at htr
          simp only [] at htr
          split
          · exact ⟨evs ++ [.httpGet (lintSumURL version)], by simp [State.log, htr]⟩
          · split
            · exact ⟨evs ++ [.httpGet (lintSumURL version)], by simp [State.log, htr]⟩
            · exact ⟨evs ++ [.httpGet (lintSumURL version), .remove path],
                by simp [osRemove_trace, State.log, htr]⟩

/-- An event other than `t.Errorf` leaves the `t.Errorf` messages as they are. -/
theorem errorfCalls_log (s : State) (ev : Event) (h : ∀ msg, ev ≠ .errorf msg) :
    errorfCalls (s.log ev) = errorfCalls s := by
  cases ev <;> simp_all [errorfCalls, State.log, List.filterMap_append]

/-- Writing a file leaves the `t.Errorf` messages as they are. -/
theorem errorfCalls_setFile (s : State) (path : String) (c : Option Bytes) :
    errorfCalls (s.setFile path c) = errorfCalls s := rfl

/-- The function `cacheDir` never calls `t.Errorf`. -/
theorem errorfCalls_cacheDir (e : Env) (s : State) :
    errorfCalls (cacheDir e s).2 = errorfCalls s := by
  rw [cacheDir_run]
  split
  · simp [errorfCalls_log]
  · split <;> simp [errorfCalls_log]

/-- The call `os.Remove` never calls `t.Errorf`. -/
theorem errorfCalls_osRemove (e : Env) (path : String) (s : State) :
    errorfCalls (osRemove e path s).2 = errorfCalls s := by
  unfold osRemove
  cases e.removeFails path <;> simp [errorfCalls_log, errorfCalls_setFile]

/-- The call `io.Copy` never calls `t.Errorf`. -/
theorem errorfCalls_ioCopy (e : Env) (path : String) (hdr : TarEntry) (s : State) :
    errorfCalls (ioCopy e path hdr s).2 = errorfCalls s := by
  simp [ioCopy, errorfCalls_log, errorfCalls_setFile]

/-- The loop of `lintFetch` never calls `t.Errorf`. -/
theorem errorfCalls_lintFetchLoop (e : Env) (path url : String) (ending : TarEnd)
    (entries : List TarEntry) (s : State) :
    errorfCalls (lintFetchLoop e path url ending entries s).2 = errorfCalls s := by
  rw [lintFetchLoop_find]
  split
  · rw [lintFetchInstall_run]
    split
    · simp [errorfCalls_log]
    · split
      · simp [errorfCalls_log, errorfCalls_osRemove]
      · split <;>
          simp [errorfCalls_log, errorfCalls_setFile, errorfCalls_osRemove,
            errorfCalls_ioCopy]
  · cases ending <;> rfl

/-- The function `lintFetch` never calls `t.Errorf`. -/
theorem errorfCalls_lintFetch (e : Env) (path version : String) (s : State) :
    errorfCalls (lintFetch e path version s).2 = errorfCalls s := by
  rw [lintFetch_run]
  split
  · simp [errorfCalls_log]
  · split
    · simp [errorfCalls_log]
    · split
      · simp [errorfCalls_log]
      · rename_i ar _
        have hl := errorfCalls_lintFetchLoop e path (lintTarURL version e.goos e.goarch)
          ar.ending ar.entries (s.log (.httpGet (lintTarURL version e.goos e.goarch)))
        rw [errorfCalls_log _ _ (by simp)] at hl
        split
        · rename_i heq
          rw [heq] at hl
          exact hl
        · rename_i heq
          rw [heq] at hl
          split
          · simpa [errorfCalls_log] using hl
          · split
            · simpa [errorfCalls_log] using hl
            · simpa [errorfCalls_log, errorfCalls_osRemove] using hl

/-- The function `lintBin` never calls `t.Errorf`. -/
theorem errorfCalls_lintBin (e : Env) (version : String) (s : State) :
    errorfCalls (lintBin e version s).2 = errorfCalls s := by
  rw [lintBin_run]
  have hc := errorfCalls_cacheDir e s
  split
  · rename_i heq
    rw [heq] at hc
    exact hc
  · rename_i dir s1 heq
    rw [heq] at hc
    split
    · simpa [errorfCalls_log] using hc
    · split
      · simpa [errorfCalls_log] using hc
      · have hf := errorfCalls_lintFetch e (e.join dir (lintBinName e version)) version
          (s1.log (.stat (e.join dir (lintBinName e version))))
        rw [errorfCalls_log _ _ (by simp)] at hf
        split <;> (rename_i heq2; rw [heq2] at hf; simpa [hf] using hc)

/-- The provisioning step never calls `t.Errorf`. -/
theorem errorfCalls_lintProvision (e : Env) (version : String) (s : State) :
    errorfCalls (lintProvision e version s).2 = errorfCalls s := by
  rw [lintProvision_run]
  have hc := errorfCalls_cacheDir e s
  split
  · rename_i heq
    rw [heq] at hc
    exact hc
  · rename_i dir s1 heq
    rw [heq] at hc
    split
    · simpa [errorfCalls_log] using hc
    · have hb := errorfCalls_lintBin e version (s1.log (.lock (e.join dir "lint.lock")))
      rw [errorfCalls_log _ _ (by simp)] at hb
      split <;> (rename_i heq2; rw [heq2] at hb; simpa [errorfCalls_log, hb] using hc)

/-- The loop of `lintHash` returns the digest field of the first line with the
wanted filename when every line before it has the separator. -/
theorem lintHashLoop_first (want : String) (pre : List String) (line : String)
    (post : List String) (hash : String)
    (hpre : ∀ l ∈ pre, ∃ h f, stringsCut l "  " = some (h, f) ∧ f ≠ want)
    (hline : stringsCut line "  " = some (hash, want)) :
    lintHashLoop want (pre ++ line :: post) = .ok hash := by
  induction pre with
  | nil => simp [lintHashLoop, hline]
  | cons l pre ih =>
    obtain ⟨h, f, hcut, hne⟩ := hpre l (by simp)
    have ih2 := ih (fun l2 hl2 => hpre l2 (by simp [hl2]))
    simp only [List.cons_append, lintHashLoop, hcut, if_neg hne]
    exact ih2

/-- The loop of `lintHash` ends in the parse error of a line without the
separator, at or before a given such line, when no line before that one has
the wanted filename. -/
theorem lintHashLoop_bad (want : String) (pre : List String) (bad : String)
    (post : List String)
    (hpre : ∀ l ∈ pre, ∀ h, stringsCut l "  " ≠ some (h, want))
    (hbad : stringsCut bad "  " = none) :
    ∃ l, l ∈ pre ++ [bad] ∧ stringsCut l "  " = none ∧
      lintHashLoop want (pre ++ bad :: post) = .error (.parseLine l) := by
  induction pre with
  | nil => exact ⟨bad, by simp, hbad, by simp [lintHashLoop, hbad]⟩
  | cons l pre ih =>
    obtain ⟨l2, hmem, hnone, hrun⟩ := ih (fun l2 hl2 => hpre l2 (by simp [hl2]))
    cases hcut : stringsCut l "  " with
    | none => exact ⟨l, by simp, hcut, by simp [lintHashLoop, hcut]⟩
    | some p =>
      obtain ⟨h, f⟩ := p
      have hne : f ≠ want := by
        intro hf
        exact hpre l (by simp) h (by rw [hcut, hf])
      refine ⟨l2, by simp at hmem ⊢; tauto, hnone, ?_⟩
      simp only [List.cons_append, lintHashLoop, hcut, if_neg hne]
      exact hrun

/-- The result of `lintSum` does not depend on the response status. -/
theorem lintSumResult_mapStatus (e : Env) (f : Nat → Nat) (version : String) :
    lintSumResult (e.mapStatus f) version = lintSumResult e version := by
  unfold lintSumResult
  simp only [Env.mapStatus]
  cases e.httpGet (lintSumURL version) <;> rfl

/-- The loop of `lintFetch` does not depend on the response status. -/
theorem lintFetchLoop_mapStatus (e : Env) (f : Nat → Nat) (path url : String)
    (ending : TarEnd) (entries : List TarEntry) :
    lintFetchLoop (e.mapStatus f) path url ending entries
      = lintFetchLoop e path url ending entries := by
  rw [lintFetchLoop_find, lintFetchLoop_find]
  rfl

/-- After an `os.Remove` that does not fail, no file exists at the path. -/
theorem osRemove_files_self (e : Env) (path : String) (t : State)
    (hr : e.removeFails path = false) : (osRemove e path t).2.files path = none := by
  simp [osRemove, hr, State.setFile]

/-- When the loop of `lintFetch` ends fatally on a target path that did not
exist, and `os.Remove` does not fail, no file exists at the target path. -/
theorem lintFetchLoop_error_files (e : Env) (path url : String) (ending : TarEnd)
    (entries : List TarEntry) (t t2 : State) (f : Fatal)
    (hfile : t.files path = none) (hr : e.removeFails path = false)
    (h : lintFetchLoop e path url ending entries t = (.error f, t2)) :
    t2.files path = none := by
  rw [lintFetchLoop_find] at h
  split at h
  · rw [lintFetchInstall_run] at h
    split at h
    · rw [← (Prod.mk.inj h).2]; exact hfile
    · split at h
      · rw [← (Prod.mk.inj h).2]; exact osRemove_files_self e path _ hr
      · split at h
        · simp at h
        · rw [← (Prod.mk.inj h).2]; exact osRemove_files_self e path _ hr
  · cases ending <;> (rw [← (Prod.mk.inj h).2]; exact hfile)

/-- When the archive's digest is not the digest `lintSum` computes, `lintFetch`
ends fatally at whatever stage, and leaves no file at a target path that did
not exist (removal not failing). -/
theorem lintFetch_mismatch_any_stage (e : Env) (path version : String) (s : State)
    (resp : Response) (sum : Bytes)
    (hg : e.httpGet (lintTarURL version e.goos e.goarch) = some resp)
    (hsum : lintSumResult e version = .ok sum)
    (hne : e.sha256 resp.body ≠ sum) :
    (∃ f, (lintFetch e path version s).1 = .error f) ∧
    (s.files path = none → e.removeFails path = false →
      (lintFetch e path version s).2.files path = none) := by
  rw [lintFetch_run]
  simp only [hg, hsum, if_neg hne]
  split
  · exact ⟨⟨_, rfl⟩, fun hf _ => hf⟩
  · split
    · exact ⟨⟨_, rfl⟩, fun hf _ => hf⟩
    · split
      · rename_i heq
        exact ⟨⟨_, rfl⟩, fun hf hr =>
          lintFetchLoop_error_files e path _ _ _
            (s.log (.httpGet (lintTarURL version e.goos e.goarch))) _ _ hf hr heq⟩
      · exact ⟨⟨_, rfl⟩, fun _ hr => osRemove_files_self e path _ hr⟩

/-- The scanned lines are the lines of the body up to the first one that does not fit the buffer, each without its carriage return. -/
theorem scanLines_eq (r : String) :
    scanLines r = ((bodyLines r).takeWhile fitsScanner).map lineText := rfl

/-- A text has at least as many bytes as characters. -/
theorem length_le_utf8ByteSize (l : List Char) : l.length ≤ (String.mk l).utf8ByteSize := by
  show l.length ≤ String.utf8ByteSize.go l
  induction l with
  | nil => exact Nat.le_refl 0
  | cons c cs ih =>
    have hc : 0 < c.utf8Size := Char.utf8Size_pos c
    show cs.length + 1 ≤ String.utf8ByteSize.go cs + c.utf8Size
    omega

/-- The first line of a body is the text before the first newline. -/
theorem rawLines_append_newline (l rest acc : List Char)
    (hnl : ∀ c ∈ l, c ≠ Char.ofNat 10) :
    rawLines (l ++ Char.ofNat 10 :: rest) acc = (acc.reverse ++ l) :: rawLines rest [] := by
  induction l generalizing acc with
  | nil => simp [rawLines]
  | cons c cs ih =>
    have hc : c ≠ Char.ofNat 10 := hnl c (by simp)
    have ih2 := ih (c :: acc) (fun d hd => hnl d (by simp [hd]))
    show rawLines (c :: (cs ++ Char.ofNat 10 :: rest)) acc = _
    rw [rawLines, if_neg hc, ih2]
    simp

/-- The longest run from the start of a list goes past elements that pass the test. -/
theorem takeWhile_split {α : Type} (p : α → Bool) (pre : List α) (x : α) (post : List α)
    (h : ∀ a ∈ pre ++ [x], p a = true) :
    (pre ++ x :: post).takeWhile p = pre ++ x :: post.takeWhile p := by
  induction pre with
  | nil =>
    have hx := h x (by simp)
    simp [List.takeWhile, hx]
  | cons a pre ih =>
    have ha := h a (by simp)
    have ih2 := ih (fun b hb => h b (by simp at hb ⊢; tauto))
    show (a :: (pre ++ x :: post)).takeWhile p = _
    rw [List.takeWhile, ha]
    simp only [List.cons_append]
    rw [ih2]

/-- When a line and the lines before it fit the buffer, the scanner delivers them all. -/
theorem scanLines_split (r : String) (pre : List (List Char)) (line : List Char)
    (post : List (List Char))
    (hlines : bodyLines r = pre ++ line :: post)
    (hfit : ∀ l ∈ pre ++ [line], (String.mk l).utf8ByteSize < maxScanTokenSize) :
    scanLines r = pre.map lineText ++ lineText line ::
      (post.takeWhile fitsScanner).map lineText := by
  rw [scanLines_eq, hlines, takeWhile_split fitsScanner pre line post]
  · simp
  · intro l hl
    simpa [fitsScanner] using hfit l hl

/-- A first line of `bufio.MaxScanTokenSize` characters or more ends the scan before any line is delivered. -/
theorem scanLines_long_line (l rest : List Char)
    (hnl : ∀ c ∈ l, c ≠ Char.ofNat 10) (hlen : maxScanTokenSize ≤ l.length) :
    scanLines (String.mk (l ++ Char.ofNat 10 :: rest)) = [] := by
  have hfit : fitsScanner l = false := by
    have := length_le_utf8ByteSize l
    simp only [fitsScanner, decide_eq_false_iff_not, not_lt]
    omega
  rw [scanLines_eq]
  show ((rawLines (l ++ Char.ofNat 10 :: rest) []).takeWhile fitsScanner).map _ = []
  rw [rawLines_append_newline l rest [] hnl]
  simp [List.takeWhile, hfit]

/-- A text without a space has no two-space separator. -/
theorem cutChars_no_space (l : List Char) (h : ∀ c ∈ l, c ≠ Char.ofNat 32) :
    cutChars "  ".data l = none := by
  induction l with
  | nil => rfl
  | cons c cs ih =>
    have hc : c ≠ Char.ofNat 32 := h c (by simp)
    have hp : List.isPrefixOf "  ".data (c :: cs) = false := by
      show List.isPrefixOf (Char.ofNat 32 :: [Char.ofNat 32]) (c :: cs) = false
      simp [List.isPrefixOf, Ne.symm hc]
    rw [cutChars, hp, ih (fun d hd => h d (by simp [hd]))]
    rfl

/-- An element at an index splits the list around it. -/
theorem split_at_index {α : Type} (ls : List α) (i : Nat) (x : α)
    (h : ls[i]? = some x) :
    ∃ pre post, ls = pre ++ x :: post ∧ pre.length = i := by
  induction ls generalizing i with
  | nil => simp at h
  | cons a l ih =>
    cases i with
    | zero =>
      simp only [List.getElem?_cons_zero, Option.some.injEq] at h
      exact ⟨[], l, by simp [h], rfl⟩
    | succ n =>
      simp only [List.getElem?_cons_succ] at h
      obtain ⟨pre, post, hl, hlen⟩ := ih n h
      exact ⟨a :: pre, post, by simp [hl], by simp [hlen]⟩

/-- The function `lintHash` returns the digest field of the first line with the
wanted filename when that line and the lines before it fit the buffer and the
lines before it have the separator. -/
theorem lintHash_of_first (e : Env) (r version : String) (pre : List (List Char))
    (line : List Char) (post : List (List Char)) (hash : String)
    (hlines : bodyLines r = pre ++ line :: post)
    (hfit : ∀ l ∈ pre ++ [line], (String.mk l).utf8ByteSize < maxScanTokenSize)
    (hpre : ∀ l ∈ pre, ∃ h f, stringsCut (lineText l) "  " = some (h, f) ∧
      f ≠ lintHashWantfile e version)
    (hline : stringsCut (lineText line) "  " = some (hash, lintHashWantfile e version)) :
    lintHash e r version = .ok hash := by
  unfold lintHash
  rw [scanLines_split r pre line post hlines hfit]
  apply lintHashLoop_first _ _ _ _ hash _ hline
  intro l hl
  obtain ⟨l0, hl0, rfl⟩ := List.mem_map.mp hl
  exact hpre l0 hl0

/-! ## The claims -/

/-- C1: whenever a call of `lintFetch` reaches the comparison (the archive
was fetched and read, the loop installed the entry, and the call of `lintSum`
returned a digest) and the SHA-256 digest of the archive bytes differs from the
digest `lintSum` returned, the call ends in the fatal error "checksum mismatch
for golangci-lint" and, when `os.Remove` does not fail, no file exists at the
target path afterwards. And `lintFetch` returns normally only when the call of
`lintSum` it made returned the digest of the archive bytes. Moreover, at
whatever stage the call ends: when the archive is fetched and its digest
differs from the digest `lintSum` computes, `lintFetch` ends in a fatal error,
and no file exists afterwards at a target path that did not exist beforehand
(removal not failing). -/
theorem lintFetch_checksum_sound (e : Env) (path version : String) (s : State) :
    (∀ resp ar u s1 sum,
      e.httpGet (lintTarURL version e.goos e.goarch) = some resp →
      resp.bodyErr = false →
      e.openArchive resp.body = some ar →
      lintFetchLoop e path (lintTarURL version e.goos e.goarch) ar.ending ar.entries
        (s.log (.httpGet (lintTarURL version e.goos e.goarch))) = (.ok u, s1) →
      (lintSum e version s1).1 = .ok sum →
      e.sha256 resp.body ≠ sum →
      (lintFetch e path version s).1 = .error .checksumMismatch ∧
      Fatal.format .checksumMismatch = "checksum mismatch for golangci-lint" ∧
      (e.removeFails path = false → (lintFetch e path version s).2.files path = none)) ∧
    (∀ u s2, lintFetch e path version s = (.ok u, s2) →
      ∃ resp s1, e.httpGet (lintTarURL version e.goos e.goarch) = some resp ∧
        lintSum e version s1 = (.ok (e.sha256 resp.body), s2)) ∧
    (∀ resp sum,
      e.httpGet (lintTarURL version e.goos e.goarch) = some resp →
      (lintSum e version s).1 = .ok sum →
      e.sha256 resp.body ≠ sum →
      (∃ f, (lintFetch e path version s).1 = .error f) ∧
      (s.files path = none → e.removeFails path = false →
        (lintFetch e path version s).2.files path = none)) := by
  refine ⟨?_, ?_, ?_⟩
  · intro resp ar u s1 sum hg hb ha hl hsum hne
    rw [lintSum_run] at hsum
    simp only [] at hsum
    have hrun : lintFetch e path version s = (.error .checksumMismatch,
        (osRemove e path (s1.log (.httpGet (lintSumURL version)))).2) := by
      rw [lintFetch_run]
      simp only [hg, hb, ha, hl, hsum, Bool.false_eq_true, if_false, if_neg hne]
    rw [hrun]
    refine ⟨rfl, rfl, ?_⟩
    intro hr
    simp [osRemove, hr, State.setFile]
  · intro u s2 h
    rw [lintFetch_run] at h
    cases hg : e.httpGet (lintTarURL version e.goos e.goarch) with
    | none => simp [hg] at h
    | some resp =>
      cases hb : resp.bodyErr
      · cases ha : e.openArchive resp.body with
        | none => simp [hg, hb, ha] at h
        | some ar =>
          simp only [hg, hb, ha, Bool.false_eq_true, if_false] at h
          rcases hl : lintFetchLoop e path (lintTarURL version e.goos e.goarch) ar.ending
              ar.entries (s.log (.httpGet (lintTarURL version e.goos e.goarch))) with ⟨r, s1⟩
          rw [hl] at h
          cases r with
          | error f => simp at h
          | ok u2 =>
            simp only [] at h
            cases hsum : lintSumResult e version with
            | error f => simp [hsum] at h
            | ok sum =>
              simp only [hsum] at h
              by_cases hd : e.sha256 resp.body = sum
              · simp only [hd, if_true, Prod.mk.injEq, true_and] at h
                refine ⟨resp, s1, rfl, ?_⟩
                rw [lintSum_run, hsum, hd, h]
              · simp [hd] at h
      · simp [hg, hb] at h
  · intro resp sum hg hsum hne
    rw [lintSum_run] at hsum
    exact lintFetch_mismatch_any_stage e path version s resp sum hg hsum hne

/-- The sample archive with a manifest that registers another digest: checksum
mismatch, and no file at the target path. -/
theorem lintFetch_checksum_sound_witness :
    (lintFetch mismatchEnv samplePath "1.0.0" emptyState).1 = .error .checksumMismatch ∧
    (lintFetch mismatchEnv samplePath "1.0.0" emptyState).2.files samplePath = none :=
  have h := (lintFetch_checksum_sound mismatchEnv samplePath "1.0.0" emptyState).1
    ⟨200, "ARCHIVE", false⟩ sampleArchive ()
    (lintFetchLoop mismatchEnv samplePath (lintTarURL "1.0.0" "linux" "amd64") .eof
      sampleArchive.entries
      (emptyState.log (.httpGet (lintTarURL "1.0.0" "linux" "amd64")))).2
    [0, 255] (by decide) rfl rfl rfl (by decide) (by decide)
  ⟨h.1, h.2.2 rfl⟩

/-- C2: the claim is that after any fatal error of `lintFetch` on a target
path that did not exist, no file exists at the target path (removal
succeeding). The code removes the file when creating or writing it fails and
when the digests differ, but not when `lintSum` ends fatally. Here the target
path does not exist, `os.Remove` would succeed, the archive is fetched and the
binary installed, and the manifest cannot be fetched: `lintFetch` ends in
"failed to fetch" and the unverified binary stays at the target path; `lintBin`
ends fatally too, and the next `lintBin` returns the path of the unverified
binary. -/
theorem lintFetch_manifest_failure_keeps_binary :
    emptyState.files samplePath = none ∧
    noManifestEnv.removeFails samplePath = false ∧
    (lintFetch noManifestEnv samplePath "1.0.0" emptyState).1
      = .error (.fetch (lintSumURL "1.0.0")) ∧
    (lintFetch noManifestEnv samplePath "1.0.0" emptyState).2.files samplePath
      = some [1, 2, 3] ∧
    (lintBin noManifestEnv "1.0.0" emptyState).1 = .error (.fetch (lintSumURL "1.0.0")) ∧
    (lintBin noManifestEnv "1.0.0" (lintBin noManifestEnv "1.0.0" emptyState).2).1
      = .ok samplePath ∧
    (lintBin noManifestEnv "1.0.0" (lintBin noManifestEnv "1.0.0" emptyState).2).2.files
      samplePath = some [1, 2, 3] := by
  refine ⟨rfl, rfl, ?_, ?_, ?_, ?_, ?_⟩ <;> decide

/-- C3: when a call `lintBin(version)` completes without a fatal error, a
second call on the resulting state returns the same path, makes three calls
only (`os.UserCacheDir`, `os.MkdirAll`, `os.Stat`: no network retrieval, no
`lintFetch`) and leaves every file unchanged. And whenever the cached path
already exists, `lintBin` returns it after those three calls, without fetching
or verifying. -/
theorem lintBin_idempotent (e : Env) (version : String) (s : State) :
    (∀ path s1, lintBin e version s = (.ok path, s1) →
      ∃ cache, e.userCacheDir = some cache ∧
        path = e.join (e.join cache "lintchecker") (lintBinName e version) ∧
        lintBin e version s1 = (.ok path,
          ((s1.log .userCacheDir).log (.mkdirAll (e.join cache "lintchecker"))).log
            (.stat path)) ∧
        (lintBin e version s1).2.files = s1.files ∧
        (∀ url, Event.httpGet url ∈ (lintBin e version s1).2.trace →
          Event.httpGet url ∈ s1.trace)) ∧
    (∀ cache content, e.userCacheDir = some cache →
      e.mkdirAllFails (e.join cache "lintchecker") = false →
      e.statFails (e.join (e.join cache "lintchecker") (lintBinName e version)) = false →
      s.files (e.join (e.join cache "lintchecker") (lintBinName e version)) = some content →
      lintBin e version s =
        (.ok (e.join (e.join cache "lintchecker") (lintBinName e version)),
          ((s.log .userCacheDir).log (.mkdirAll (e.join cache "lintchecker"))).log
            (.stat (e.join (e.join cache "lintchecker") (lintBinName e version))))) := by
  have key : ∀ (t : State) cache content, e.userCacheDir = some cache →
      e.mkdirAllFails (e.join cache "lintchecker") = false →
      e.statFails (e.join (e.join cache "lintchecker") (lintBinName e version)) = false →
      t.files (e.join (e.join cache "lintchecker") (lintBinName e version)) = some content →
      lintBin e version t =
        (.ok (e.join (e.join cache "lintchecker") (lintBinName e version)),
          ((t.log .userCacheDir).log (.mkdirAll (e.join cache "lintchecker"))).log
            (.stat (e.join (e.join cache "lintchecker") (lintBinName e version)))) := by
    intro t cache content hc hm hs hf
    have hf2 : ((t.log .userCacheDir).log (.mkdirAll (e.join cache "lintchecker"))).files
        (e.join (e.join cache "lintchecker") (lintBinName e version)) = some content := hf
    simp only [lintBin_run, cacheDir_run, hc, hm, hs, Bool.false_eq_true, if_false, hf2]
  refine ⟨?_, fun cache content => key s cache content⟩
  intro path s1 h
  rw [lintBin_run, cacheDir_run] at h
  cases hc : e.userCacheDir with
  | none => simp [hc] at h
  | some cache =>
    cases hm : e.mkdirAllFails (e.join cache "lintchecker")
    · simp only [hc, hm, Bool.false_eq_true, if_false] at h
      cases hs : e.statFails (e.join (e.join cache "lintchecker") (lintBinName e version))
      · simp only [hs, Bool.false_eq_true, if_false] at h
        have fin : ∀ content,
            s1.files (e.join (e.join cache "lintchecker") (lintBinName e version))
              = some content →
            path = e.join (e.join cache "lintchecker") (lintBinName e version) →
            path = e.join (e.join cache "lintchecker") (lintBinName e version) ∧
              lintBin e version s1 = (.ok path,
                ((s1.log .userCacheDir).log (.mkdirAll (e.join cache "lintchecker"))).log
                  (.stat path)) ∧
              (lintBin e version s1).2.files = s1.files ∧
              (∀ url, Event.httpGet url ∈ (lintBin e version s1).2.trace →
                Event.httpGet url ∈ s1.trace) := by
          intro content hcont hp
          subst hp
          refine ⟨rfl, key s1 cache content hc hm hs hcont, ?_, ?_⟩
          · rw [key s1 cache content hc hm hs hcont]; rfl
          · rw [key s1 cache content hc hm hs hcont]
            intro url hmem
            simpa [State.log] using hmem
        cases hfile : ((s.log .userCacheDir).log (.mkdirAll (e.join cache "lintchecker"))).files
            (e.join (e.join cache "lintchecker") (lintBinName e version)) with
        | some content =>
          simp only [hfile, Prod.mk.injEq, Except.ok.injEq] at h
          refine ⟨cache, rfl, fin content ?_ h.1.symm⟩
          rw [← h.2]; exact hfile
        | none =>
          simp only [hfile] at h
          rcases hl : lintFetch e (e.join (e.join cache "lintchecker") (lintBinName e version))
              version ((((s.log .userCacheDir).log
                (.mkdirAll (e.join cache "lintchecker")))).log
                (.stat (e.join (e.join cache "lintchecker") (lintBinName e version))))
            with ⟨r, s2⟩
          rw [hl] at h
          cases r with
          | error f => simp at h
          | ok u =>
            simp only [Prod.mk.injEq, Except.ok.injEq] at h
            obtain ⟨_, _, hdr, _, _, _, _, _, _, _, hfiles⟩ := lintFetch_ok e _ version _ s2 u hl
            refine ⟨cache, rfl, fin hdr.data ?_ h.1.symm⟩
            rw [← h.2]; exact hfiles
      · simp [hs] at h
    · simp [hc, hm] at h

/-- The sample archive with a matching manifest: the first call fetches and
installs, the second returns the same path and leaves the files unchanged. -/
theorem lintBin_idempotent_witness :
    (lintBin goodEnv "1.0.0" emptyState).1 = .ok samplePath ∧
    (lintBin goodEnv "1.0.0" (lintBin goodEnv "1.0.0" emptyState).2).1 = .ok samplePath ∧
    (lintBin goodEnv "1.0.0" (lintBin goodEnv "1.0.0" emptyState).2).2.files
      = (lintBin goodEnv "1.0.0" emptyState).2.files :=
  have h := (lintBin_idempotent goodEnv "1.0.0" emptyState).1 samplePath
    (lintBin goodEnv "1.0.0" emptyState).2 rfl
  ⟨by decide, by decide, h.choose_spec.2.2.2.1⟩

/-- C4: in a run of `lint` that reaches the execution of the binary, (1) when
the execution returns no error, `lint` returns normally and `t.Errorf` is not
called; (2) when it returns an exit error, `lint` returns normally and
`t.Errorf` is called exactly once, with the tag of `testingT`, the text
"golangci-lint failed", a newline and the captured output; (3) when it returns
any other error, `lint` ends in the fatal error "golangci-lint failed to run"
and `t.Errorf` is not called. -/
theorem lint_classification (e : Env) (version : String) (s s1 : State) (bin : String)
    (h : lintProvision e version s = (.ok bin, s1)) :
    (∀ out, e.exec bin lintArgs = .success out →
      lint e version s = (.ok (), s1.log (.exec bin lintArgs)) ∧
      errorfCalls (lint e version s).2 = errorfCalls s) ∧
    (∀ out, e.exec bin lintArgs = .exitError out →
      lint e version s = (.ok (), (s1.log (.exec bin lintArgs)).log
        (.errorf (testingTTag ++ ("golangci-lint failed\n" ++ out)))) ∧
      errorfCalls (lint e version s).2
        = errorfCalls s ++ [testingTTag ++ ("golangci-lint failed\n" ++ out)]) ∧
    (∀ out, e.exec bin lintArgs = .otherError out →
      lint e version s = (.error .run, s1.log (.exec bin lintArgs)) ∧
      errorfCalls (lint e version s).2 = errorfCalls s) := by
  have hp : errorfCalls s1 = errorfCalls s := by
    have := errorfCalls_lintProvision e version s
    rw [h] at this
    exact this
  refine ⟨?_, ?_, ?_⟩ <;> intro out ho
  · have hrun : lint e version s = (.ok (), s1.log (.exec bin lintArgs)) := by
      rw [lint_run, h]; simp only [lintRun_run, ho]
    rw [hrun]
    exact ⟨rfl, by simp [errorfCalls_log, hp]⟩
  · have hrun : lint e version s = (.ok (), (s1.log (.exec bin lintArgs)).log
        (.errorf (testingTTag ++ ("golangci-lint failed\n" ++ out)))) := by
      rw [lint_run, h]; simp only [lintRun_run, ho]
    rw [hrun]
    refine ⟨rfl, ?_⟩
    rw [← hp]
    simp [errorfCalls, State.log, List.filterMap_append]
  · have hrun : lint e version s = (.error .run, s1.log (.exec bin lintArgs)) := by
      rw [lint_run, h]; simp only [lintRun_run, ho]
    rw [hrun]
    exact ⟨rfl, by simp [errorfCalls_log, hp]⟩

/-- A cached binary that exits non-zero: `lint` returns normally with one
`t.Errorf` message that ends with the output. -/
theorem lint_classification_witness :
    (lint findingsEnv "1.0.0" cachedState).1 = .ok () ∧
    errorfCalls (lint findingsEnv "1.0.0" cachedState).2
      = [testingTTag ++ ("golangci-lint failed\n" ++ "main.go:1: unused")] :=
  have h := (lint_classification findingsEnv "1.0.0" cachedState
    (lintProvision findingsEnv "1.0.0" cachedState).2 samplePath rfl).2.1
    "main.go:1: unused" rfl
  ⟨congrArg Prod.fst h.1, h.2⟩

/-- C5 (amended): the lines of a manifest body are the texts ended by a
newline and the text after the last newline when it is not empty, each without
one trailing carriage return. For every manifest body in which some line has
the wanted filename as its filename field, every line before the first such
line contains the two-space separator, and that line and every line before it
are shorter than 65536 bytes (the limit of `bufio.Scanner`, at which the scan
ends), `lintHash` returns the digest field of that first line, whatever follows
it; and `lintSum` returns that field decoded from hexadecimal when it is valid
hexadecimal, and ends in the fatal decoding error otherwise. In particular, for
a manifest in which every line has the separator and is shorter than 65536
bytes and exactly one line has the wanted filename, the result is the digest
field of that line, at whatever index it stands. -/
theorem lintHash_first_match (e : Env) (r version : String) :
    (∀ (pre : List (List Char)) (line : List Char) (post : List (List Char))
        (hash : String),
      bodyLines r = pre ++ line :: post →
      (∀ l ∈ pre ++ [line], (String.mk l).utf8ByteSize < maxScanTokenSize) →
      (∀ l ∈ pre, ∃ h f, stringsCut (lineText l) "  " = some (h, f) ∧
        f ≠ lintHashWantfile e version) →
      stringsCut (lineText line) "  " = some (hash, lintHashWantfile e version) →
      lintHash e r version = .ok hash ∧
      ∀ (s : State) (resp : Response),
        e.httpGet (lintSumURL version) = some resp → resp.body = r →
        (lintSum e version s).1 =
          match hexDecodeString hash with
          | some sum => .ok sum
          | none => .error (.decodeSum hash)) ∧
    (∀ (i : Nat) (line : List Char) (hash : String),
      (bodyLines r)[i]? = some line →
      (∀ l ∈ bodyLines r, (String.mk l).utf8ByteSize < maxScanTokenSize ∧
        ∃ h f, stringsCut (lineText l) "  " = some (h, f)) →
      stringsCut (lineText line) "  " = some (hash, lintHashWantfile e version) →
      (∀ (j : Nat) (l : List Char) (h : String), (bodyLines r)[j]? = some l →
        stringsCut (lineText l) "  " = some (h, lintHashWantfile e version) → j = i) →
      lintHash e r version = .ok hash) := by
  constructor
  · intro pre line post hash hlines hfit hpre hline
    have h1 := lintHash_of_first e r version pre line post hash hlines hfit hpre hline
    refine ⟨h1, ?_⟩
    intro s resp hg hbody
    rw [lintSum_run]
    simp only [lintSumResult, hg, hbody, h1]
    cases hexDecodeString hash <;> rfl
  · intro i line hash hi hwf hline huniq
    obtain ⟨pre, post, hsplit, hlen⟩ := split_at_index (bodyLines r) i line hi
    apply lintHash_of_first e r version pre line post hash hsplit
    · intro l hl
      exact (hwf l (by rw [hsplit]; simp at hl ⊢; tauto)).1
    · intro l hl
      obtain ⟨h, f, hcut⟩ := (hwf l (by rw [hsplit]; simp [hl])).2
      refine ⟨h, f, hcut, ?_⟩
      intro hf
      obtain ⟨j, hj⟩ := List.mem_iff_getElem?.mp hl
      have hjlt : j < pre.length := by
        obtain ⟨hlt, -⟩ := List.getElem?_eq_some.mp hj
        exact hlt
      have hj2 : (bodyLines r)[j]? = some l := by
        rw [hsplit, List.getElem?_append_left hjlt]
        exact hj
      have := huniq j l h hj2 (by rw [hcut, hf])
      omega
    · exact hline

/-- A manifest with the wanted line second and a line without separator
after it; and a well-formed manifest of two lines with the wanted line at
index 1. -/
theorem lintHash_first_match_witness :
    lintHash sampleEnv
      "aaaa  other.tar.gz\n00ff  golangci-lint-1.0.0-linux-amd64.tar.gz\noops\n" "1.0.0"
      = .ok "00ff" ∧
    lintHash sampleEnv
      "aaaa  other.tar.gz\n00ff  golangci-lint-1.0.0-linux-amd64.tar.gz\n" "1.0.0"
      = .ok "00ff" := by
  have hcut0 : stringsCut (lineText "aaaa  other.tar.gz".data) "  "
      = some ("aaaa", "other.tar.gz") := by decide
  have hcut1 : stringsCut (lineText "00ff  golangci-lint-1.0.0-linux-amd64.tar.gz".data) "  "
      = some ("00ff", lintHashWantfile sampleEnv "1.0.0") := by decide
  have hne : "other.tar.gz" ≠ lintHashWantfile sampleEnv "1.0.0" := by decide
  have hb : bodyLines "aaaa  other.tar.gz\n00ff  golangci-lint-1.0.0-linux-amd64.tar.gz\n"
      = ["aaaa  other.tar.gz".data, "00ff  golangci-lint-1.0.0-linux-amd64.tar.gz".data] := by
    decide
  constructor
  · exact ((lintHash_first_match sampleEnv
      "aaaa  other.tar.gz\n00ff  golangci-lint-1.0.0-linux-amd64.tar.gz\noops\n" "1.0.0").1
      ["aaaa  other.tar.gz".data] "00ff  golangci-lint-1.0.0-linux-amd64.tar.gz".data
      ["oops".data] "00ff"
      (by decide) (by decide)
      (fun l hl => ⟨"aaaa", "other.tar.gz", by
        rw [List.mem_singleton] at hl
        subst hl
        exact hcut0, hne⟩)
      hcut1).1
  · refine (lintHash_first_match sampleEnv
      "aaaa  other.tar.gz\n00ff  golangci-lint-1.0.0-linux-amd64.tar.gz\n" "1.0.0").2
      1 "00ff  golangci-lint-1.0.0-linux-amd64.tar.gz".data "00ff" ?_ ?_ hcut1 ?_
    · rw [hb]; rfl
    · rw [hb]
      intro l hl
      simp only [List.mem_cons, List.mem_singleton, List.not_mem_nil, or_false] at hl
      rcases hl with rfl | rfl
      · exact ⟨by decide, _, _, hcut0⟩
      · exact ⟨by decide, _, _, hcut1⟩
    · rw [hb]
      intro j l h hj hcut
      match j, hj with
      | 0, hj =>
        simp only [List.getElem?_cons_zero, Option.some.injEq] at hj
        subst hj
        rw [hcut0] at hcut
        exact absurd (Prod.mk.inj (Option.some.inj hcut)).2 hne
      | 1, _ => rfl
      | n + 2, hj => simp at hj

/-- C5 as stated fails. First body: the second line has the wanted
filename and `lintHash` ends in the parse error of the first line. Second body:
the first line has the separator and is 65536 bytes long, the second line has
the wanted filename, and `lintHash` ends in "failed to find": the scan ended at
the first line. -/
theorem lintHash_first_match_counterexample :
    (scanLines "oops\n00ff  golangci-lint-1.0.0-linux-amd64.tar.gz\n"
      = ["oops", "00ff  golangci-lint-1.0.0-linux-amd64.tar.gz"] ∧
    stringsCut "00ff  golangci-lint-1.0.0-linux-amd64.tar.gz" "  "
      = some ("00ff", lintHashWantfile sampleEnv "1.0.0") ∧
    lintHash sampleEnv "oops\n00ff  golangci-lint-1.0.0-linux-amd64.tar.gz\n" "1.0.0"
      = .error (.parseLine "oops")) ∧
    (stringsCut (String.mk longManifestLine) "  "
      = some ("00", String.mk (List.replicate 65532 (Char.ofNat 97))) ∧
    lintHash sampleEnv
      (String.mk (longManifestLine ++ Char.ofNat 10 ::
        "00ff  golangci-lint-1.0.0-linux-amd64.tar.gz\n".data)) "1.0.0"
      = .error (.findSum (lintHashWantfile sampleEnv "1.0.0"))) := by
  refine ⟨by decide, ?_, ?_⟩
  · show stringsCut (String.mk ("00  ".data ++ List.replicate 65532 (Char.ofNat 97))) "  "
      = some ("00", String.mk (List.replicate 65532 (Char.ofNat 97)))
    generalize List.replicate 65532 (Char.ofNat 97) = rep
    show (cutChars [Char.ofNat 32, Char.ofNat 32]
        (Char.ofNat 48 :: Char.ofNat 48 :: Char.ofNat 32 :: Char.ofNat 32 :: rep)).map
        (fun p => (String.mk p.1, String.mk p.2))
      = some (String.mk [Char.ofNat 48, Char.ofNat 48], String.mk rep)
    have h1 : ∀ t, List.isPrefixOf [Char.ofNat 32, Char.ofNat 32] (Char.ofNat 48 :: t)
        = false := fun t => by
      simp [List.isPrefixOf]
    have h2 : List.isPrefixOf [Char.ofNat 32, Char.ofNat 32]
        (Char.ofNat 32 :: Char.ofNat 32 :: rep) = true := by
      simp [List.isPrefixOf]
    rw [cutChars, h1, cutChars, h1, cutChars, h2]
    rfl
  · have hs : scanLines (String.mk (longManifestLine ++ Char.ofNat 10 ::
        "00ff  golangci-lint-1.0.0-linux-amd64.tar.gz\n".data)) = [] :=
      scanLines_long_line longManifestLine _ (fun c hc => by
        simp only [longManifestLine, List.mem_append, List.mem_replicate] at hc
        rcases hc with hc | hc
        · revert c; decide
        · rw [hc.2]; decide) (by
        show 64 * 1024 ≤ ("00  ".data ++ List.replicate 65532 (Char.ofNat 97)).length
        rw [List.length_append, List.length_replicate]
        decide)
    exact congrArg (lintHashLoop (lintHashWantfile sampleEnv "1.0.0")) hs

/-- C6 (amended): the lines of a manifest body are the texts ended by a
newline and the text after the last newline when it is not empty, each without
one trailing carriage return. For every manifest body with a line that lacks
the two-space separator, such that no line before it has the wanted filename as
its filename field and that line and
every line before it are shorter than 65536 bytes (the limit of
`bufio.Scanner`), `lintHash` ends in the fatal parse error ("failed to parse
golangci-lint checksum file"), for that line or an earlier line that lacks the
separator, and returns no digest. -/
theorem lintHash_parse_error (e : Env) (r version : String) (pre : List (List Char))
    (bad : List Char) (post : List (List Char))
    (hlines : bodyLines r = pre ++ bad :: post)
    (hfit : ∀ l ∈ pre ++ [bad], (String.mk l).utf8ByteSize < maxScanTokenSize)
    (hbad : stringsCut (lineText bad) "  " = none)
    (hpre : ∀ l ∈ pre, ∀ h,
      stringsCut (lineText l) "  " ≠ some (h, lintHashWantfile e version)) :
    ∃ l, l ∈ pre ++ [bad] ∧ stringsCut (lineText l) "  " = none ∧
      lintHash e r version = .error (.parseLine (lineText l)) ∧
      Fatal.format (.parseLine (lineText l)) =
        "failed to parse golangci-lint checksum file: failed to parse line: %v" := by
  obtain ⟨t, hmem, hnone, hrun⟩ :=
    lintHashLoop_bad (lintHashWantfile e version) (pre.map lineText) (lineText bad)
      ((post.takeWhile fitsScanner).map lineText)
      (fun t ht => by
        obtain ⟨l0, hl0, rfl⟩ := List.mem_map.mp ht
        exact hpre l0 hl0)
      hbad
  have hmem2 : t ∈ (pre ++ [bad]).map lineText := by
    simpa using hmem
  obtain ⟨l, hl, rfl⟩ := List.mem_map.mp hmem2
  refine ⟨l, hl, hnone, ?_, rfl⟩
  unfold lintHash
  rw [scanLines_split r pre bad post hlines hfit]
  exact hrun

/-- A manifest with the line without separator before the wanted line. -/
theorem lintHash_parse_error_witness :
    ∃ l, l ∈ ["aaaa  other.tar.gz".data] ++ ["oops".data] ∧
      stringsCut (lineText l) "  " = none ∧
      lintHash sampleEnv
        "aaaa  other.tar.gz\noops\n00ff  golangci-lint-1.0.0-linux-amd64.tar.gz\n" "1.0.0"
        = .error (.parseLine (lineText l)) ∧
      Fatal.format (.parseLine (lineText l)) =
        "failed to parse golangci-lint checksum file: failed to parse line: %v" :=
  lintHash_parse_error sampleEnv
    "aaaa  other.tar.gz\noops\n00ff  golangci-lint-1.0.0-linux-amd64.tar.gz\n" "1.0.0"
    ["aaaa  other.tar.gz".data] "oops".data
    ["00ff  golangci-lint-1.0.0-linux-amd64.tar.gz".data]
    (by decide) (by decide) (by decide)
    (fun l hl h => by
      rw [List.mem_singleton] at hl
      subst hl
      intro hc
      have h2 : stringsCut (lineText "aaaa  other.tar.gz".data) "  "
          = some ("aaaa", "other.tar.gz") := by
        decide
      rw [h2] at hc
      have h3 := (Prod.mk.inj (Option.some.inj hc)).2
      exact absurd h3 (by decide))

/-- C6 as stated fails. First body: a line lacks the separator, it
stands after the line of the wanted filename, and `lintHash` returns the digest
field. Second body: the only line lacks the separator and is 65536 bytes long,
and `lintHash` ends in "failed to find" instead of the parse error. -/
theorem lintHash_parse_error_counterexample :
    ("oops" ∈ scanLines "00ff  golangci-lint-1.0.0-linux-amd64.tar.gz\noops\n" ∧
    stringsCut "oops" "  " = none ∧
    lintHash sampleEnv "00ff  golangci-lint-1.0.0-linux-amd64.tar.gz\noops\n" "1.0.0"
      = .ok "00ff") ∧
    (stringsCut (String.mk longBadLine) "  " = none ∧
    lintHash sampleEnv (String.mk (longBadLine ++ [Char.ofNat 10])) "1.0.0"
      = .error (.findSum (lintHashWantfile sampleEnv "1.0.0"))) := by
  have hmem : ∀ c ∈ longBadLine, c = Char.ofNat 97 := fun c hc =>
    List.eq_of_mem_replicate hc
  refine ⟨by decide, ?_, ?_⟩
  · show (cutChars "  ".data longBadLine).map _ = none
    rw [cutChars_no_space longBadLine (fun c hc => by rw [hmem c hc]; decide)]
    rfl
  · have hs : scanLines (String.mk (longBadLine ++ [Char.ofNat 10])) = [] :=
      scanLines_long_line longBadLine [] (fun c hc => by rw [hmem c hc]; decide) (by
        show 64 * 1024 ≤ (List.replicate 65536 (Char.ofNat 97)).length
        rw [List.length_replicate])
    exact congrArg (lintHashLoop (lintHashWantfile sampleEnv "1.0.0")) hs

/-- C7: extraction in `lintFetch`, once the archive is fetched and opened.
When some entry's name ends with "golangci-lint", let `hdr` be the first such
entry: every write of the loop goes to the target path and carries bytes of
`hdr` (its first bytes, all of them when the copy succeeds), no other path
changes, and when creating the directory, creating the file and the copy
succeed the loop returns with exactly the content of `hdr` at the target path
(earlier content is gone) after one write; and whenever `lintFetch` returns
normally the target path holds exactly the content of `hdr`. When no entry's
name ends with
"golangci-lint" and the archive ends, `lintFetch` ends in the fatal error "failed
to find 'golangci-lint' binary" having made the request only: no file
changes. -/
theorem lintFetch_extraction (e : Env) (path version : String) (s : State)
    (resp : Response) (ar : Archive)
    (hg : e.httpGet (lintTarURL version e.goos e.goarch) = some resp)
    (hb : resp.bodyErr = false)
    (ha : e.openArchive resp.body = some ar) :
    (∀ pre hdr post, ar.entries = pre ++ hdr :: post →
      (∀ h ∈ pre, stringsHasSuffix h.name "golangci-lint" = false) →
      stringsHasSuffix hdr.name "golangci-lint" = true →
      (∃ evs, (lintFetchLoop e path (lintTarURL version e.goos e.goarch) ar.ending ar.entries
            (s.log (.httpGet (lintTarURL version e.goos e.goarch)))).2.trace
          = s.trace ++ .httpGet (lintTarURL version e.goos e.goarch) :: evs ∧
        ∀ p d, Event.write p d ∈ evs → p = path ∧ ∃ k, d = hdr.data.take k) ∧
      (∀ q, q ≠ path →
        (lintFetchLoop e path (lintTarURL version e.goos e.goarch) ar.ending ar.entries
          (s.log (.httpGet (lintTarURL version e.goos e.goarch)))).2.files q = s.files q) ∧
      (e.mkdirAllFails (e.dir path) = false → e.openFileFails path = false →
        hdr.readFails = false → (∀ k, e.writeCap path = some k → hdr.data.length ≤ k) →
        lintFetchLoop e path (lintTarURL version e.goos e.goarch) ar.ending ar.entries
            (s.log (.httpGet (lintTarURL version e.goos e.goarch)))
          = (.ok (), ⟨fun q => if q = path then some hdr.data else s.files q,
              s.trace ++ [.httpGet (lintTarURL version e.goos e.goarch),
                .mkdirAll (e.dir path), .openFile path, .write path hdr.data]⟩)) ∧
      (∀ u s2, lintFetch e path version s = (.ok u, s2) →
        s2.files path = some hdr.data)) ∧
    ((∀ h ∈ ar.entries, stringsHasSuffix h.name "golangci-lint" = false) →
      ar.ending = .eof →
      lintFetch e path version s
        = (.error (.findBinary (lintTarURL version e.goos e.goarch)),
            s.log (.httpGet (lintTarURL version e.goos e.goarch))) ∧
      Fatal.format (.findBinary (lintTarURL version e.goos e.goarch))
        = "failed to find 'golangci-lint' binary in %v" ∧
      (s.log (.httpGet (lintTarURL version e.goos e.goarch))).files = s.files) := by
  constructor
  · intro pre hdr post hsplit hpre hhdr
    have hfind : ar.entries.find? isLintEntry = some hdr := by
      rw [hsplit]
      exact find?_of_split isLintEntry pre hdr post hpre hhdr
    have hloop : lintFetchLoop e path (lintTarURL version e.goos e.goarch) ar.ending
        ar.entries = lintFetchInstall e path hdr := by
      rw [lintFetchLoop_find, hfind]
    rw [hloop]
    obtain ⟨⟨evs, htr, hw⟩, hfiles⟩ := lintFetchInstall_effects e path hdr
      (s.log (.httpGet (lintTarURL version e.goos e.goarch)))
    refine ⟨⟨evs, ?_, hw⟩, ?_, ?_, ?_⟩
    · rw [htr]; simp [State.log]
    · intro q hq
      rw [hfiles q hq]; rfl
    rotate_left
    · intro u s2 hrun
      obtain ⟨resp2, ar2, hdr2, _, hg2, _, ha2, hfind2, _, _, hfile2⟩ :=
        lintFetch_ok e path version s s2 u hrun
      rw [hg] at hg2
      cases Option.some.inj hg2
      rw [ha] at ha2
      cases Option.some.inj ha2
      rw [hfind] at hfind2
      cases Option.some.inj hfind2
      exact hfile2
    · intro hm ho hr hcap
      have hwritten : ioCopyWritten e path hdr = hdr.data := by
        unfold ioCopyWritten
        cases hc : e.writeCap path with
        | none => rfl
        | some k => exact List.take_of_length_le (hcap k hc)
      have hok : ioCopyOk e path hdr = true := by
        simp [ioCopyOk, hr, hwritten]
      rw [lintFetchInstall_run]
      simp only [hm, ho, hok, Bool.false_eq_true, if_false, if_true, ioCopy, hwritten]
      simp only [State.log, State.setFile, List.append_assoc, List.singleton_append,
        Prod.mk.injEq, true_and, State.mk.injEq, and_true]
      refine ⟨?_, by simp⟩
      funext q
      by_cases hq : q = path <;> simp [hq]
  · intro hnone hend
    have hfind : ar.entries.find? isLintEntry = none :=
      find?_none_of_all isLintEntry ar.entries hnone
    refine ⟨?_, rfl, rfl⟩
    rw [lintFetch_run]
    simp only [hg, hb, ha, Bool.false_eq_true, if_false, lintFetchLoop_find, hfind, hend,
      fatalf]

/-- The sample archive: the README entry is skipped and the binary is the
content of the target path. -/
theorem lintFetch_extraction_witness :
    (lintFetchLoop goodEnv samplePath (lintTarURL "1.0.0" "linux" "amd64") .eof
      sampleArchive.entries
      (emptyState.log (.httpGet (lintTarURL "1.0.0" "linux" "amd64")))).2.files samplePath
      = some [1, 2, 3] :=
  have h := ((lintFetch_extraction goodEnv samplePath "1.0.0" emptyState
    ⟨200, "ARCHIVE", false⟩ sampleArchive (by decide) rfl rfl).1
    [⟨"golangci-lint-1.0.0-linux-amd64/README.md", [9], false⟩]
    ⟨"golangci-lint-1.0.0-linux-amd64/golangci-lint", [1, 2, 3], false⟩ [] rfl
    (by decide) (by decide)).2.2.1 rfl rfl rfl (fun k hk => by cases hk)
  (congrArg (fun r => r.2.files samplePath) h).trans (by decide)

/-- C8 (amended): a transport failure of the retrieval is fatal ("failed to
fetch") in `lintSum` and in `lintFetch`, before any parsing or extraction. The
status of a response is not inspected: `lintSum` and `lintFetch` behave the same
whatever the status codes are, so the body of a non-success response is parsed
as a manifest, or extracted as an archive, like any other body. -/
theorem fetch_status_ignored (e : Env) (path version : String) (s : State) :
    (e.httpGet (lintSumURL version) = none →
      lintSum e version s = (.error (.fetch (lintSumURL version)),
        s.log (.httpGet (lintSumURL version)))) ∧
    (e.httpGet (lintTarURL version e.goos e.goarch) = none →
      lintFetch e path version s
        = (.error (.fetch (lintTarURL version e.goos e.goarch)),
            s.log (.httpGet (lintTarURL version e.goos e.goarch)))) ∧
    (∀ f : Nat → Nat,
      lintSum (e.mapStatus f) version s = lintSum e version s ∧
      lintFetch (e.mapStatus f) path version s = lintFetch e path version s) := by
  refine ⟨?_, ?_, ?_⟩
  · intro h
    rw [lintSum_run]
    simp only [lintSumResult, h]
  · intro h
    rw [lintFetch_run]
    simp only [h]
  · intro f
    constructor
    · rw [lintSum_run, lintSum_run, lintSumResult_mapStatus]
    · rw [lintFetch_run, lintFetch_run]
      simp only [lintSumResult_mapStatus, lintFetchLoop_mapStatus]
      simp only [Env.mapStatus]
      cases e.httpGet (lintTarURL version e.goos e.goarch) <;> rfl

/-- A network that answers nothing: `lintSum` ends in "failed to fetch". -/
theorem fetch_status_ignored_witness :
    lintSum sampleEnv "1.0.0" emptyState
      = (.error (.fetch (lintSumURL "1.0.0")),
          emptyState.log (.httpGet (lintSumURL "1.0.0"))) :=
  (fetch_status_ignored sampleEnv samplePath "1.0.0" emptyState).1 rfl

/-- C8 as stated fails: the manifest request is answered with status 404
and `lintSum` returns the digest found in the body. -/
theorem fetch_status_ignored_counterexample :
    notFoundEnv.httpGet (lintSumURL "1.0.0")
      = some ⟨404, "00ff  golangci-lint-1.0.0-linux-amd64.tar.gz\n", false⟩ ∧
    (lintSum notFoundEnv "1.0.0" emptyState).1 = .ok [0, 255] := by
  decide

/-- C9: in a run of `lint` in which the cache directory is found, the
provisioning step runs inside the lock on cache-root/"lint.lock". When acquiring
the lock fails, `lint` makes four calls (`os.UserCacheDir`, `os.MkdirAll`, the
lock attempt, the execution of the command with the empty binary path) followed
by `t.Errorf` calls only: no `os.Stat`, no network retrieval, no file written,
every file unchanged; the result is that of the run step with the empty path.
When the lock is acquired, `lintBin` runs between the lock and the unlock. -/
theorem lint_lock (e : Env) (version : String) (s : State) (cache : String)
    (hc : e.userCacheDir = some cache)
    (hm : e.mkdirAllFails (e.join cache "lintchecker") = false) :
    (e.lockFails (e.join (e.join cache "lintchecker") "lint.lock") = true →
      lintProvision e version s = (.ok "",
        ((s.log .userCacheDir).log (.mkdirAll (e.join cache "lintchecker"))).log
          (.lock (e.join (e.join cache "lintchecker") "lint.lock"))) ∧
      lint e version s = lintRun e ""
        (((s.log .userCacheDir).log (.mkdirAll (e.join cache "lintchecker"))).log
          (.lock (e.join (e.join cache "lintchecker") "lint.lock"))) ∧
      (lint e version s).2.files = s.files ∧
      ∃ rest, (lint e version s).2.trace
          = s.trace ++ [.userCacheDir, .mkdirAll (e.join cache "lintchecker"),
              .lock (e.join (e.join cache "lintchecker") "lint.lock"),
              .exec "" lintArgs] ++ rest ∧
        ∀ ev ∈ rest, ∃ msg, ev = .errorf msg) ∧
    (e.lockFails (e.join (e.join cache "lintchecker") "lint.lock") = false →
      lintProvision e version s =
        match lintBin e version
          (((s.log .userCacheDir).log (.mkdirAll (e.join cache "lintchecker"))).log
            (.lock (e.join (e.join cache "lintchecker") "lint.lock"))) with
        | (.ok bin, s2) =>
          (.ok bin, s2.log (.unlock (e.join (e.join cache "lintchecker") "lint.lock")))
        | (.error f, s2) =>
          (.error f, s2.log (.unlock (e.join (e.join cache "lintchecker") "lint.lock")))) := by
  constructor
  · intro hl
    have hp : lintProvision e version s = (.ok "",
        ((s.log .userCacheDir).log (.mkdirAll (e.join cache "lintchecker"))).log
          (.lock (e.join (e.join cache "lintchecker") "lint.lock"))) := by
      rw [lintProvision_run, cacheDir_run]
      simp only [hc, hm, hl, Bool.false_eq_true, if_false, if_true]
    have hrun : lint e version s = lintRun e ""
        (((s.log .userCacheDir).log (.mkdirAll (e.join cache "lintchecker"))).log
          (.lock (e.join (e.join cache "lintchecker") "lint.lock"))) := by
      rw [lint_run, hp]
    refine ⟨hp, hrun, ?_, ?_⟩
    · rw [hrun, lintRun_run]
      cases e.exec "" lintArgs <;> rfl
    · rw [hrun, lintRun_run]
      cases e.exec "" lintArgs with
      | success out => exact ⟨[], by simp [State.log], by simp⟩
      | exitError out =>
        exact ⟨[.errorf (testingTTag ++ ("golangci-lint failed\n" ++ out))],
          by simp [State.log], by simp⟩
      | otherError out => exact ⟨[], by simp [State.log], by simp⟩
  · intro hl
    rw [lintProvision_run, cacheDir_run]
    simp only [hc, hm, hl, Bool.false_eq_true, if_false]
    try rfl

/-- A lock that cannot be acquired: the four calls of `lint`. -/
theorem lint_lock_witness :
    (lint lockedEnv "1.0.0" emptyState).2.trace
      = [.userCacheDir, .mkdirAll "/home/u/.cache/lintchecker",
          .lock "/home/u/.cache/lintchecker/lint.lock", .exec "" lintArgs] :=
  have h := ((lint_lock lockedEnv "1.0.0" emptyState "/home/u/.cache" rfl rfl).1 rfl).2.1
  by rw [h]; decide

/-- C10: for every version, OS and architecture, the archive URL is the
release base URL for the version followed by "/" and the lookup key of
`lintHash`; the lookup key is "golangci-lint-{version}-{os}-{arch}.tar.gz", the
file name `lintBin` formats followed by ".tar.gz"; `lintHash` looks up that key,
`lintFetch` requests that URL first, and every path `lintBin` returns is the
cache directory joined with that file name. -/
theorem artifact_filename (e : Env) (version : String) :
    lintTarURL version e.goos e.goarch
      = "https://github.com/golangci/golangci-lint/releases/download/v" ++ version
          ++ "/" ++ lintHashWantfile e version ∧
    lintHashWantfile e version
      = "golangci-lint-" ++ version ++ "-" ++ e.goos ++ "-" ++ e.goarch ++ ".tar.gz" ∧
    lintHashWantfile e version = lintBinName e version ++ ".tar.gz" ∧
    (∀ r, lintHash e r version
      = lintHashLoop (lintBinName e version ++ ".tar.gz") (scanLines r)) ∧
    (∀ path s, ∃ evs, (lintFetch e path version s).2.trace
      = s.trace ++ .httpGet
          ("https://github.com/golangci/golangci-lint/releases/download/v" ++ version
            ++ "/" ++ (lintBinName e version ++ ".tar.gz")) :: evs) ∧
    (∀ s path s1, lintBin e version s = (.ok path, s1) →
      ∃ cache, e.userCacheDir = some cache ∧
        path = e.join (e.join cache "lintchecker") (lintBinName e version)) := by
  have hurl : lintTarURL version e.goos e.goarch
      = "https://github.com/golangci/golangci-lint/releases/download/v" ++ version
          ++ "/" ++ lintHashWantfile e version := by
    simp only [lintTarURL, lintReleaseURL, lintTarFile, lintHashWantfile, String.append_assoc]
    rfl
  refine ⟨hurl, rfl, rfl, fun r => rfl, ?_, fun s path s1 h => lintBin_path e version s s1 path h⟩
  intro path s
  have hw : lintBinName e version ++ ".tar.gz" = lintHashWantfile e version := rfl
  rw [hw, ← hurl]
  exact lintFetch_trace e path version s

/-- The path `lintBin` returns for the cached sample binary. -/
theorem artifact_filename_witness :
    ∃ cache, sampleEnv.userCacheDir = some cache ∧
      samplePath
        = sampleEnv.join (sampleEnv.join cache "lintchecker") (lintBinName sampleEnv "1.0.0") :=
  (artifact_filename sampleEnv "1.0.0").2.2.2.2.2 cachedState samplePath
    (lintBin sampleEnv "1.0.0" cachedState).2 rfl

end Lintchecker
